import Mathlib

/-!
Verification of the N-Queens SAT enumerator (`src/ex2-5.py`).

The file shallowly embeds the program: the CNF encoding built by `queens`,
the backend-selection logic, the incremental enumeration loop with blocking
clauses, and the `print_solution` decoder.  The SAT backends themselves
(pysat's Glucose3 / Minisat22 / Cadical103) are external collaborators; they
are modelled as an abstract oracle that must answer soundly (a reported
model satisfies the clauses handed to it so far, a reported UNSAT means no
model exists), which is the interface contract the program relies on.
-/

/-- Model of Python's `str.lower()` (ASCII lowercasing, which is all the
program ever feeds it): lower-case every character of the string. -/
def strLower (s : String) : String := ⟨s.data.map Char.toLower⟩

/-- A clause as handed to `solver.add_clause`: a list of signed integer
literals. -/
abbrev Clause := List Int

/-- A CNF formula: the list of clauses, in the order the program appends
them. -/
abbrev Formula := List Clause

/-- Embedding of the local function `var` in `queens`
(`src/ex2-5.py:29-30`): `var(i, j) = i * N + j + 1`. -/
def var (N i j : Nat) : Nat := i * N + j + 1

/-- All ordered pairs `(l[k1], l[k2])` with `k1 < k2`, in the order produced
by the program's nested loops `for k1 in range(len(l)): for k2 in
range(k1+1, len(l))`. -/
def listPairs {α : Type} : List α → List (α × α)
  | [] => []
  | x :: xs => (xs.map (fun y => (x, y))) ++ listPairs xs

/-- Pairwise-exclusion clauses `[-l[k1], -l[k2]]` for all `k1 < k2`, as
emitted for a diagonal's collected variable list (`src/ex2-5.py:62-64`). -/
def pairClauses (l : List Nat) : List Clause :=
  (listPairs l).map (fun p => [-(p.1 : Int), -(p.2 : Int)])

/-- The variables collected for the main diagonal `i - j = d`
(`src/ex2-5.py:55-59`): for `i` in `range(N)`, `j = i - d`, kept when
`0 <= j < N`. -/
def diagVars (N : Nat) (d : Int) : List Nat :=
  (List.range N).filterMap (fun (i : Nat) =>
    let j : Int := (i : Int) - d
    if 0 ≤ j ∧ j < (N : Int) then some (var N i j.toNat) else none)

/-- The variables collected for the anti-diagonal `i + j = d`
(`src/ex2-5.py:69-73`): for `i` in `range(N)`, `j = d - i`, kept when
`0 <= j < N`. -/
def antiDiagVars (N : Nat) (d : Int) : List Nat :=
  (List.range N).filterMap (fun (i : Nat) =>
    let j : Int := d - (i : Int)
    if 0 ≤ j ∧ j < (N : Int) then some (var N i j.toNat) else none)

/-- The clause list `cnf.clauses` built by `queens` before any solver call
(`src/ex2-5.py:33-78`), in the program's append order: per row an
at-least-one clause followed by that row's at-most-one pairs; then the
per-column pairs; then the main-diagonal families for
`d in range(-(N-1), N)`; then the anti-diagonal families for
`d in range(2*N - 1)`. -/
def queensClauses (N : Nat) : Formula :=
  ((List.range N).flatMap (fun i =>
    ((List.range N).map (fun j => ((var N i j : Nat) : Int)))
      :: (List.range N).flatMap (fun j1 =>
        (List.range' (j1+1) (N - (j1+1))).map (fun j2 =>
          [-(var N i j1 : Int), -(var N i j2 : Int)]))))
  ++ ((List.range N).flatMap (fun j =>
      (List.range N).flatMap (fun i1 =>
        (List.range' (i1+1) (N - (i1+1))).map (fun i2 =>
          [-(var N i1 j : Int), -(var N i2 j : Int)]))))
  ++ ((List.range (2*N-1)).flatMap (fun t =>
      pairClauses (diagVars N ((t : Int) - ((N : Int) - 1)))))
  ++ ((List.range (2*N-1)).flatMap (fun t =>
      pairClauses (antiDiagVars N (t : Int))))

/-- Truth value of variable `v` (1-based, as in the program) under a
complete assignment of the `n` variables. Out-of-range variables are read
as false; the program never produces them. -/
def evalVar (n : Nat) (a : Fin n → Bool) (v : Nat) : Bool :=
  if h : 1 ≤ v ∧ v ≤ n then a ⟨v - 1, by omega⟩ else false

/-- Satisfaction of a signed literal: positive `l` means variable `l` is
true, negative `l` means variable `-l` is false. -/
def litSat (n : Nat) (a : Fin n → Bool) (l : Int) : Bool :=
  if 0 < l then evalVar n a l.toNat else ! evalVar n a (-l).toNat

/-- A clause is satisfied when some literal of it is. -/
def clauseSat (n : Nat) (a : Fin n → Bool) (c : Clause) : Bool :=
  c.any (litSat n a)

/-- A formula is satisfied when every clause is. -/
def cnfSat (n : Nat) (a : Fin n → Bool) (F : Formula) : Bool :=
  F.all (clauseSat n a)

/-- The model list returned by `solver.get_model()` for the assignment `a`:
one signed literal per variable `v` in `[1, n]`, in increasing variable
order, positive when `a` makes `v` true. -/
def modelLits (n : Nat) (a : Fin n → Bool) : List Int :=
  (List.finRange n).map (fun v =>
    if a v then (((v : Nat) + 1 : Nat) : Int) else -(((v : Nat) + 1 : Nat) : Int))

/-- Read a model list back into a complete assignment: variable `v + 1` is
true when its positive literal occurs in the list. -/
def decodeAssign (n : Nat) (m : List Int) : Fin n → Bool :=
  fun v => decide (((((v : Nat) + 1 : Nat)) : Int) ∈ m)

/-- Number of complete assignments of the `n` variables that satisfy a
formula. -/
def modelCount (n : Nat) (F : Formula) : Nat :=
  ((Finset.univ : Finset (Fin n → Bool)).filter (fun a => cnfSat n a F = true)).card

/-- Embedding of the blocking-clause construction (`src/ex2-5.py:105-110`),
including the source's branch whose two arms are identical: every literal of
the model is negated. -/
def blocking_clause (model : List Int) : Clause :=
  model.map (fun lit => if 0 < lit then -lit else -lit)

/-- Outcome of one `solver.solve()` call: a model (read off with
`get_model()` on a True answer), an UNSAT answer (False), or a
backend fault (a raised exception). -/
inductive SolveResult : Type
  | sat (model : List Int)
  | unsat
  | error
deriving DecidableEq

/-- A solver backend session as the enumeration loop sees it: a function
from the clauses added so far to the answer of the next `solve()` call. -/
structure Oracle : Type where
  solve : Formula → SolveResult

/-- Soundness contract of a SAT backend over `n` variables: a reported
model is the literal list of a complete assignment satisfying the clauses
added so far, and UNSAT is only reported when no satisfying assignment
exists.  Faults are unconstrained. -/
structure ValidOracle (n : Nat) (o : Oracle) : Prop where
  sat_sound : ∀ F m, o.solve F = .sat m →
    ∃ a : Fin n → Bool, m = modelLits n a ∧ cnfSat n a F = true
  unsat_sound : ∀ F, o.solve F = .unsat →
    ∀ a : Fin n → Bool, cnfSat n a F = false

/-- A backend that never raises during `solve`. -/
def NoFault (o : Oracle) : Prop := ∀ F, o.solve F ≠ .error

/-- Result of running the enumeration loop (`src/ex2-5.py:99-113`) on a
given backend: either the loop exits normally (the backend answered UNSAT),
carrying the models accepted in order, or the backend faulted mid-loop and
the exception propagates, carrying the models accepted before the fault. -/
inductive EnumOut : Type
  | done (models : List (List Int))
  | fault (models : List (List Int))
deriving DecidableEq

/-- The three pysat solver classes imported by the program
(`src/ex2-5.py:8`).  Their solving behaviour is external; only their
identity matters to the selection logic. -/
inductive SolverClass : Type
  | Glucose3
  | Minisat22
  | Cadical103
deriving DecidableEq

/-- Embedding of the `solver_map` dictionary (`src/ex2-5.py:81-85`). -/
def solver_map : List (String × SolverClass) :=
  [("glucose3", SolverClass.Glucose3),
   ("minisat", SolverClass.Minisat22),
   ("cadical", SolverClass.Cadical103)]

/-- Embedding of the backend-selection steps of `queens`
(`src/ex2-5.py:87-90`): if the lower-cased name is not a key of
`solver_map`, replace the name by `"glucose3"`; then look the lower-cased
name up.  `none` corresponds to a `KeyError` on the dictionary access. -/
def selectClass (solver_name : String) : Option SolverClass :=
  let solver_name :=
    if (solver_map.lookup (strLower solver_name)).isSome then solver_name
    else "glucose3"
  solver_map.lookup (strLower solver_name)

/-- Observable outcome of one `queens(N, solver_name)` call: the returned
count or a propagated exception, whether a solver session was constructed,
how many `solve()` queries were issued, and how many times the session was
released (`solver.delete()`). -/
structure Outcome : Type where
  result : Except Unit Nat
  models : List (List Int)
  constructed : Bool
  queries : Nat
  releases : Nat

namespace PrintSolution

/-- The local `var` function of `print_solution` (`src/ex2-5.py:127-128`). -/
def var (N i j : Nat) : Nat := i * N + j + 1

/-- The board computed by `print_solution` (`src/ex2-5.py:131-136`): a cell
holds `'Q'` exactly when the positive literal `var(i, j)` occurs in the
model list, `'.'` otherwise. -/
def board (N : Nat) (model : List Int) : List (List Char) :=
  (List.range N).map (fun i =>
    (List.range N).map (fun j =>
      if ((var N i j : Nat) : Int) ∈ model then 'Q' else '.'))

end PrintSolution

/-- All assignment vectors of length `n` (index `k` holding variable
`k + 1`'s value), used by the reference backend below. -/
def allAssignVecs : Nat → List (List Bool)
  | 0 => [[]]
  | k+1 => (allAssignVecs k).flatMap (fun l => [false :: l, true :: l])

/-- Read an assignment vector as a complete assignment. -/
def vecFun (n : Nat) (l : List Bool) : Fin n → Bool := fun v => l.getD v.val false

/-- Solving function of a reference backend used to witness the
solver-facing theorems: search the finite assignment space for a satisfying
assignment of the clauses added so far; report its model list, or UNSAT
when none exists.  It never faults. -/
def bruteSolve (n : Nat) (F : Formula) : SolveResult :=
  match (allAssignVecs n).find? (fun l => cnfSat n (vecFun n l) F) with
  | some l => SolveResult.sat (modelLits n (vecFun n l))
  | none => SolveResult.unsat

/-- The reference backend as an oracle. -/
def bruteOracle (n : Nat) : Oracle := ⟨bruteSolve n⟩

/-- The models accepted by an enumeration run, in acceptance order
(whether or not the run ended in a fault). -/
def modelsOf : EnumOut → List (List Int)
  | EnumOut.done l => l
  | EnumOut.fault l => l

/-- A backend whose `solve` always raises; sound vacuously. -/
def errOracle : Oracle := ⟨fun _ => SolveResult.error⟩

/-- A backend used to witness the blocking-clause theorem: answers one
model for the empty formula over one variable, raises on anything else;
sound. -/
def oneShotOracle : Oracle :=
  ⟨fun F => if F.isEmpty then SolveResult.sat (modelLits 1 (fun _ => false))
    else SolveResult.error⟩

/-- A row at-least-one clause as the spec describes it: for some row
`i < N`, the `N` positive literals `var(i, j)`. -/
def RowALOClause (N : Nat) (c : Clause) : Prop :=
  ∃ i, i < N ∧ c = (List.range N).map (fun j => ((var N i j : Nat) : Int))

/-- A row at-most-one clause: for some row `i` and unordered pair of
distinct columns (normalised `j1 < j2`), the two negative literals. -/
def RowAMOClause (N : Nat) (c : Clause) : Prop :=
  ∃ i j1 j2, i < N ∧ j1 < j2 ∧ j2 < N ∧
    c = [-(var N i j1 : Int), -(var N i j2 : Int)]

/-- A column at-most-one clause: for some column `j` and unordered pair of
distinct rows (normalised `i1 < i2`), the two negative literals. -/
def ColAMOClause (N : Nat) (c : Clause) : Prop :=
  ∃ j i1 i2, j < N ∧ i1 < i2 ∧ i2 < N ∧
    c = [-(var N i1 j : Int), -(var N i2 j : Int)]

/-- A main-diagonal pairwise-exclusion clause: for some diagonal value
`d ∈ [-(N-1), N-1]` and unordered pair of distinct cells on that diagonal
(normalised by row order), the two negative literals. -/
def DiagClause (N : Nat) (c : Clause) : Prop :=
  ∃ d : Int, -((N : Int) - 1) ≤ d ∧ d ≤ (N : Int) - 1 ∧
    ∃ i1 j1 i2 j2 : Nat, i1 < i2 ∧ i2 < N ∧ j1 < N ∧ j2 < N ∧
      (i1 : Int) - (j1 : Int) = d ∧ (i2 : Int) - (j2 : Int) = d ∧
      c = [-(var N i1 j1 : Int), -(var N i2 j2 : Int)]

/-- An anti-diagonal pairwise-exclusion clause: for some anti-diagonal value
`d ∈ [0, 2N-2]` and unordered pair of distinct cells on that anti-diagonal
(normalised by row order), the two negative literals. -/
def AntiDiagClause (N : Nat) (c : Clause) : Prop :=
  ∃ d : Int, 0 ≤ d ∧ d ≤ 2 * (N : Int) - 2 ∧
    ∃ i1 j1 i2 j2 : Nat, i1 < i2 ∧ i2 < N ∧ j1 < N ∧ j2 < N ∧
      (i1 : Int) + (j1 : Int) = d ∧ (i2 : Int) + (j2 : Int) = d ∧
      c = [-(var N i1 j1 : Int), -(var N i2 j2 : Int)]

/-- Queen-presence reading of an assignment at a board cell, through the
program's variable encoding. -/
def queenB (N : Nat) (a : Fin (N * N) → Bool) (i j : Nat) : Bool :=
  evalVar (N * N) a (var N i j)

/-- The program's CNF read back as board constraints: at least one queen per
row, at most one per row, per column, per main diagonal and per
anti-diagonal. -/
def BoardOK (N : Nat) (a : Fin (N * N) → Bool) : Prop :=
  (∀ i, i < N → ∃ j, j < N ∧ queenB N a i j = true) ∧
  (∀ i j1 j2, i < N → j1 < j2 → j2 < N →
    ¬(queenB N a i j1 = true ∧ queenB N a i j2 = true)) ∧
  (∀ j i1 i2, j < N → i1 < i2 → i2 < N →
    ¬(queenB N a i1 j = true ∧ queenB N a i2 j = true)) ∧
  (∀ i1 j1 i2 j2, i1 < i2 → i2 < N → j1 < N → j2 < N →
    (i1 : Int) - (j1 : Int) = (i2 : Int) - (j2 : Int) →
    ¬(queenB N a i1 j1 = true ∧ queenB N a i2 j2 = true)) ∧
  (∀ i1 j1 i2 j2, i1 < i2 → i2 < N → j1 < N → j2 < N →
    i1 + j1 = i2 + j2 →
    ¬(queenB N a i1 j1 = true ∧ queenB N a i2 j2 = true))

/-- Safety check for a backtracking N-Queens counter used as the reference
count: candidate column `c` at distance `d` from the head of `placed` must
not share a column or a diagonal with any already-placed queen. -/
def safeAux (c : Nat) : Nat → List Nat → Bool
  | _, [] => true
  | d, p :: rest =>
    decide (p ≠ c) && decide (p + d ≠ c) && decide (c + d ≠ p) && safeAux c (d+1) rest

/-- A stack of placed columns (head = most recently placed row) is valid
when every entry is a legal in-range column and attacks nothing below it. -/
def validStack (N : Nat) : List Nat → Bool
  | [] => true
  | c :: rest => decide (c < N) && safeAux c 1 rest && validStack N rest

/-- Number of ways to extend `placed` by `r` further rows, counted by
backtracking. -/
def countQueensAux (N : Nat) : Nat → List Nat → Nat
  | 0, _ => 1
  | r+1, placed =>
    ((List.range N).map (fun c =>
      if safeAux c 1 placed then countQueensAux N r (c :: placed) else 0)).sum

/-- Reference solution count for the N-Queens problem, by backtracking. -/
def countQueens (N : Nat) : Nat := countQueensAux N N []

/-- All column stacks of length `r` with entries below `N`. -/
def allLists (N : Nat) : Nat → List (List Nat)
  | 0 => [[]]
  | r+1 => (List.range N).flatMap (fun c => (allLists N r).map (fun l => l ++ [c]))

/-- The (unique, for satisfying assignments) column of the queen in row `i`,
found by scanning the columns. -/
def colOf (N : Nat) (a : Fin (N * N) → Bool) (i : Nat) : Nat :=
  ((List.range N).find? (fun j => queenB N a i j)).getD 0

/-- Column stack read off from an assignment: entry `k` is the column of the
queen in row `N - 1 - k` (head = last row). -/
def decodeList (N : Nat) (a : Fin (N * N) → Bool) : List Nat :=
  (List.range N).map (fun k => colOf N a (N - 1 - k))

/-- The assignment placing one queen per row as described by a column
stack. -/
def encodeAssign (N : Nat) (l : List Nat) : Fin (N * N) → Bool :=
  fun v => decide (l.get? (N - 1 - v.val / N) = some (v.val % N))

lemma blocking_clause_eq_neg (m : List Int) : blocking_clause m = m.map (fun l => -l) := by
  simp [blocking_clause]

lemma evalVar_index (n : Nat) (a : Fin n → Bool) (v : Fin n) :
    evalVar n a (v.val + 1) = a v := by
  have h : 1 ≤ v.val + 1 ∧ v.val + 1 ≤ n := ⟨Nat.le_add_left 1 v, v.isLt⟩
  simp only [evalVar, dif_pos h, Nat.add_sub_cancel, Fin.eta]

lemma litSat_posLit (n : Nat) (a : Fin n → Bool) (v : Fin n) :
    litSat n a (((v.val + 1 : Nat) : Int)) = a v := by
  have h0 : (0 : Int) < ((v.val + 1 : Nat) : Int) := by exact_mod_cast Nat.succ_pos v.val
  unfold litSat
  rw [if_pos h0, Int.toNat_natCast, evalVar_index]

lemma litSat_negLit (n : Nat) (a : Fin n → Bool) (v : Fin n) :
    litSat n a (-((v.val + 1 : Nat) : Int)) = ! a v := by
  have h0 : (0 : Int) < ((v.val + 1 : Nat) : Int) := by exact_mod_cast Nat.succ_pos v.val
  unfold litSat
  rw [if_neg (by omega), neg_neg, Int.toNat_natCast, evalVar_index]

lemma litSat_negModelLit (n : Nat) (b : Fin n → Bool) (t : Bool) (v : Fin n) :
    litSat n b (-(if t then ((v.val + 1 : Nat) : Int) else -((v.val + 1 : Nat) : Int)))
      = (if t then ! b v else b v) := by
  cases t
  · rw [if_neg (by simp), if_neg (by simp), neg_neg, litSat_posLit]
  · rw [if_pos rfl, if_pos rfl, litSat_negLit]

lemma clauseSat_blocking (n : Nat) (a b : Fin n → Bool) :
    clauseSat n b (blocking_clause (modelLits n a)) = false ↔ b = a := by
  rw [blocking_clause_eq_neg]
  unfold clauseSat modelLits
  rw [List.map_map, List.any_eq_false]
  constructor
  · intro h
    funext v
    have hv := h _ (List.mem_map.mpr ⟨v, List.mem_finRange v, rfl⟩)
    rw [Function.comp_apply, litSat_negModelLit] at hv
    rcases hab : a v with _ | _ <;> rw [hab] at hv <;> simp at hv <;> exact hv
  · rintro rfl lit hlit
    obtain ⟨v, _, rfl⟩ := List.mem_map.mp hlit
    rw [Function.comp_apply, litSat_negModelLit]
    rcases hab : b v with _ | _ <;> simp [hab]

lemma cnfSat_append (n : Nat) (a : Fin n → Bool) (F1 F2 : Formula) :
    cnfSat n a (F1 ++ F2) = (cnfSat n a F1 && cnfSat n a F2) := by
  simp [cnfSat, List.all_append]

lemma cnfSat_block_iff (n : Nat) (a b : Fin n → Bool) (F : Formula) :
    cnfSat n b (F ++ [blocking_clause (modelLits n a)]) = true ↔
      (cnfSat n b F = true ∧ b ≠ a) := by
  rw [cnfSat_append, Bool.and_eq_true]
  refine and_congr Iff.rfl ?_
  have hb := clauseSat_blocking n a b
  simp only [cnfSat, List.all_cons, List.all_nil, Bool.and_true]
  constructor
  · intro h hba
    rw [hb.mpr hba] at h
    exact Bool.false_ne_true h
  · intro hne
    rcases hcb : clauseSat n b (blocking_clause (modelLits n a)) with _ | _
    · exact absurd (hb.mp hcb) hne
    · rfl

lemma modelCount_filter_block (n : Nat) (F : Formula) (a : Fin n → Bool) :
    ((Finset.univ : Finset (Fin n → Bool)).filter
        (fun b => cnfSat n b (F ++ [blocking_clause (modelLits n a)]) = true))
      = (((Finset.univ : Finset (Fin n → Bool)).filter
        (fun b => cnfSat n b F = true)).erase a) := by
  ext b
  simp only [Finset.mem_filter, Finset.mem_erase, Finset.mem_univ, true_and]
  rw [cnfSat_block_iff]
  tauto

lemma modelCount_block_add_one (n : Nat) (F : Formula) (a : Fin n → Bool)
    (ha : cnfSat n a F = true) :
    modelCount n (F ++ [blocking_clause (modelLits n a)]) + 1 = modelCount n F := by
  have hmem : a ∈ (Finset.univ : Finset (Fin n → Bool)).filter
      (fun b => cnfSat n b F = true) :=
    Finset.mem_filter.mpr ⟨Finset.mem_univ a, ha⟩
  have hpos : 1 ≤ ((Finset.univ : Finset (Fin n → Bool)).filter
      (fun b => cnfSat n b F = true)).card :=
    Finset.card_pos.mpr ⟨a, hmem⟩
  unfold modelCount
  rw [modelCount_filter_block, Finset.card_erase_of_mem hmem]
  omega

/-- Embedding of the enumeration loop `while solver.solve(): ...`
(`src/ex2-5.py:99-113`): query the backend on the clauses added so far; on a
model, record it and add exactly the blocking clause; on UNSAT, stop; on a
fault, propagate.  The backend's soundness contract makes the loop
terminate: every accepted model strictly decreases the number of remaining
satisfying assignments. -/
def enumAll (n : Nat) (o : Oracle) (h : ValidOracle n o) (F : Formula) : EnumOut :=
  match hs : o.solve F with
  | .unsat => .done []
  | .error => .fault []
  | .sat m =>
    match enumAll n o h (F ++ [blocking_clause m]) with
    | .done l => .done (m :: l)
    | .fault l => .fault (m :: l)
termination_by modelCount n F
decreasing_by
  obtain ⟨a, rfl, hsat⟩ := h.sat_sound F m hs
  have := modelCount_block_add_one n F a hsat
  omega

/-- Embedding of `queens` (`src/ex2-5.py:13-116`), parameterised by the
backend behaviours `bo` (one oracle per solver class, each satisfying the
backend soundness contract over the `N*N` variables).  For `N <= 3` the
function returns 0 before any solver work.  Otherwise it selects the
backend class, hands `queensClauses` to the session, runs the enumeration
loop, and on normal loop exit calls `solver.delete()` once and returns the
count; a fault propagates past the `delete()` call, so no release happens
on that path. -/
def queens (N : Int) (solver_name : String) (bo : SolverClass → Oracle)
    (hbo : ∀ c, ValidOracle (N.toNat * N.toNat) (bo c)) : Outcome :=
  if N ≤ 3 then ⟨.ok 0, [], false, 0, 0⟩
  else
    match selectClass solver_name with
    | none => ⟨.error (), [], false, 0, 0⟩
    | some c =>
      match enumAll (N.toNat * N.toNat) (bo c) (hbo c) (queensClauses N.toNat) with
      | .done l => ⟨.ok l.length, l, true, l.length + 1, 1⟩
      | .fault l => ⟨.error (), l, true, l.length + 1, 0⟩

lemma ofFn_mem_allAssignVecs (n : Nat) (a : Fin n → Bool) :
    List.ofFn a ∈ allAssignVecs n := by
  induction n with
  | zero => simp [allAssignVecs]
  | succ k ih =>
    rw [List.ofFn_succ, allAssignVecs]
    refine List.mem_flatMap.mpr ⟨List.ofFn (fun i => a i.succ), ih _, ?_⟩
    cases h : a 0 <;> simp

lemma vecFun_ofFn (n : Nat) (a : Fin n → Bool) : vecFun n (List.ofFn a) = a := by
  funext v
  simp [vecFun, List.getD_eq_getElem?_getD, List.getElem?_ofFn, v.isLt]

lemma bruteOracle_valid (n : Nat) : ValidOracle n (bruteOracle n) := by
  constructor
  · intro F m hm
    have hm' : bruteSolve n F = SolveResult.sat m := hm
    unfold bruteSolve at hm'
    rcases hfind : (allAssignVecs n).find? (fun l => cnfSat n (vecFun n l) F)
        with _ | l
    · rw [hfind] at hm'; exact absurd hm' (by simp)
    · rw [hfind] at hm'
      simp only [SolveResult.sat.injEq] at hm'
      exact ⟨vecFun n l, hm'.symm, by simpa using List.find?_some hfind⟩
  · intro F hF a
    have hF' : bruteSolve n F = SolveResult.unsat := hF
    unfold bruteSolve at hF'
    rcases hfind : (allAssignVecs n).find? (fun l => cnfSat n (vecFun n l) F)
        with _ | l
    · have := List.find?_eq_none.mp hfind (List.ofFn a) (ofFn_mem_allAssignVecs n a)
      rw [vecFun_ofFn] at this
      simpa using this
    · rw [hfind] at hF'; exact absurd hF' (by simp)

lemma bruteOracle_noFault (n : Nat) : NoFault (bruteOracle n) := by
  intro F
  show bruteSolve n F ≠ SolveResult.error
  unfold bruteSolve
  rcases hfind : (allAssignVecs n).find? (fun l => cnfSat n (vecFun n l) F)
      with _ | l <;> simp [hfind]

lemma enumAll_error (n : Nat) (o : Oracle) (h : ValidOracle n o) (F : Formula)
    (hs : o.solve F = SolveResult.error) : enumAll n o h F = EnumOut.fault [] := by
  rw [enumAll]
  split <;> simp_all

lemma enumAll_unsat (n : Nat) (o : Oracle) (h : ValidOracle n o) (F : Formula)
    (hs : o.solve F = SolveResult.unsat) : enumAll n o h F = EnumOut.done [] := by
  rw [enumAll]
  split <;> simp_all

lemma enumAll_sat (n : Nat) (o : Oracle) (h : ValidOracle n o) (F : Formula)
    (m : List Int) (hs : o.solve F = SolveResult.sat m) :
    enumAll n o h F =
      match enumAll n o h (F ++ [blocking_clause m]) with
      | EnumOut.done l => EnumOut.done (m :: l)
      | EnumOut.fault l => EnumOut.fault (m :: l) := by
  rw [enumAll]
  split <;> simp_all

lemma modelCount_eq_zero_of_unsat (n : Nat) (o : Oracle) (h : ValidOracle n o)
    (F : Formula) (hs : o.solve F = SolveResult.unsat) : modelCount n F = 0 := by
  unfold modelCount
  rw [Finset.card_eq_zero, Finset.filter_eq_empty_iff]
  intro a _
  rw [h.unsat_sound F hs a]
  simp

lemma decodeAssign_modelLits (n : Nat) (a : Fin n → Bool) :
    decodeAssign n (modelLits n a) = a := by
  funext v
  unfold decodeAssign modelLits
  rcases hav : a v with _ | _
  · rw [decide_eq_false_iff_not]
    rw [List.mem_map]
    rintro ⟨w, -, hw⟩
    rcases haw : a w with _ | _ <;> rw [haw] at hw
    · rw [if_neg (by simp)] at hw
      omega
    · rw [if_pos rfl] at hw
      have hwv : w = v := Fin.ext (by omega)
      rw [hwv, hav] at haw
      exact absurd haw (by simp)
  · rw [decide_eq_true_eq]
    exact List.mem_map.mpr ⟨v, List.mem_finRange v, by rw [hav]; rfl⟩

lemma enumAll_noFault_aux (n : Nat) (o : Oracle) (h : ValidOracle n o)
    (hnf : NoFault o) :
    ∀ k F, modelCount n F = k →
      ∃ l, enumAll n o h F = EnumOut.done l ∧ l.length = modelCount n F := by
  intro k
  induction k using Nat.strong_induction_on with
  | _ k ih =>
    intro F hk
    rcases hs : o.solve F with m | _ | _
    · obtain ⟨a, rfl, hsat⟩ := h.sat_sound F _ hs
      have hdec := modelCount_block_add_one n F a hsat
      obtain ⟨l, hl, hlen⟩ :=
        ih (modelCount n (F ++ [blocking_clause (modelLits n a)])) (by omega) _ rfl
      refine ⟨modelLits n a :: l, ?_, ?_⟩
      · rw [enumAll_sat n o h F _ hs, hl]
      · simp only [List.length_cons]
        omega
    · exact ⟨[], enumAll_unsat n o h F hs,
        by rw [modelCount_eq_zero_of_unsat n o h F hs]; rfl⟩
    · exact absurd hs (hnf F)

lemma enumAll_noFault (n : Nat) (o : Oracle) (h : ValidOracle n o)
    (hnf : NoFault o) (F : Formula) :
    ∃ l, enumAll n o h F = EnumOut.done l ∧ l.length = modelCount n F :=
  enumAll_noFault_aux n o h hnf (modelCount n F) F rfl

lemma enumAll_models_aux (n : Nat) (o : Oracle) (h : ValidOracle n o) :
    ∀ k F, modelCount n F = k →
      (∀ m ∈ modelsOf (enumAll n o h F),
          ∃ a, m = modelLits n a ∧ cnfSat n a F = true) ∧
        (modelsOf (enumAll n o h F)).Pairwise
          (fun m1 m2 => decodeAssign n m1 ≠ decodeAssign n m2) := by
  intro k
  induction k using Nat.strong_induction_on with
  | _ k ih =>
    intro F hk
    rcases hs : o.solve F with m | _ | _
    · obtain ⟨a, rfl, hsat⟩ := h.sat_sound F _ hs
      have hdec := modelCount_block_add_one n F a hsat
      obtain ⟨ihmem, ihpw⟩ :=
        ih (modelCount n (F ++ [blocking_clause (modelLits n a)])) (by omega) _ rfl
      rw [enumAll_sat n o h F _ hs]
      have hcons : modelsOf
          (match enumAll n o h (F ++ [blocking_clause (modelLits n a)]) with
            | EnumOut.done l => EnumOut.done (modelLits n a :: l)
            | EnumOut.fault l => EnumOut.fault (modelLits n a :: l))
          = modelLits n a ::
            modelsOf (enumAll n o h (F ++ [blocking_clause (modelLits n a)])) := by
        cases henum : enumAll n o h (F ++ [blocking_clause (modelLits n a)]) <;> rfl
      rw [hcons]
      constructor
      · intro m hm
        rcases List.mem_cons.mp hm with rfl | hm'
        · exact ⟨a, rfl, hsat⟩
        · obtain ⟨b, rfl, hb⟩ := ihmem m hm'
          exact ⟨b, rfl, ((cnfSat_block_iff n a b F).mp hb).1⟩
      · rw [List.pairwise_cons]
        refine ⟨?_, ihpw⟩
        intro m hm
        obtain ⟨b, rfl, hb⟩ := ihmem m hm
        have hbne : b ≠ a := ((cnfSat_block_iff n a b F).mp hb).2
        rw [decodeAssign_modelLits, decodeAssign_modelLits]
        exact fun hcontra => hbne hcontra.symm
    · rw [enumAll_unsat n o h F hs]
      exact ⟨by intro m hm; exact absurd hm (List.not_mem_nil m), List.Pairwise.nil⟩
    · rw [enumAll_error n o h F hs]
      exact ⟨by intro m hm; exact absurd hm (List.not_mem_nil m), List.Pairwise.nil⟩

lemma enumAll_models (n : Nat) (o : Oracle) (h : ValidOracle n o) (F : Formula) :
    (∀ m ∈ modelsOf (enumAll n o h F),
        ∃ a, m = modelLits n a ∧ cnfSat n a F = true) ∧
      (modelsOf (enumAll n o h F)).Pairwise
        (fun m1 m2 => decodeAssign n m1 ≠ decodeAssign n m2) :=
  enumAll_models_aux n o h (modelCount n F) F rfl

lemma selectClass_eq (s : String) :
    selectClass s =
      some (if strLower s = "minisat" then SolverClass.Minisat22
        else if strLower s = "cadical" then SolverClass.Cadical103
        else SolverClass.Glucose3) := by
  by_cases h1 : strLower s = "glucose3"
  · simp [selectClass, solver_map, List.lookup, h1]
  · by_cases h2 : strLower s = "minisat"
    · simp [selectClass, solver_map, List.lookup, h1, h2]
    · by_cases h3 : strLower s = "cadical"
      · simp [selectClass, solver_map, List.lookup, h1, h2, h3]
      · have e1 : (strLower s == "glucose3") = false := by simpa using h1
        have e2 : (strLower s == "minisat") = false := by simpa using h2
        have e3 : (strLower s == "cadical") = false := by simpa using h3
        have g1 : strLower "glucose3" = "glucose3" := by decide
        simp [selectClass, solver_map, List.lookup, e1, e2, e3, g1, h2, h3]

lemma errOracle_valid (n : Nat) : ValidOracle n errOracle := by
  constructor
  · intro F m hm
    exact absurd hm (by simp [errOracle])
  · intro F hF
    exact absurd hF (by simp [errOracle])

lemma oneShotOracle_valid : ValidOracle 1 oneShotOracle := by
  constructor
  · intro F m hm
    have : oneShotOracle.solve F =
        (if F.isEmpty then SolveResult.sat (modelLits 1 (fun _ => false))
          else SolveResult.error) := rfl
    rw [this] at hm
    rcases hFe : F.isEmpty with _ | _ <;> rw [hFe] at hm
    · exact absurd hm (by simp)
    · refine ⟨fun _ => false, (by simpa using hm.symm), ?_⟩
      rw [List.isEmpty_iff.mp hFe]
      rfl
  · intro F hF
    have : oneShotOracle.solve F =
        (if F.isEmpty then SolveResult.sat (modelLits 1 (fun _ => false))
          else SolveResult.error) := rfl
    rw [this] at hF
    rcases hFe : F.isEmpty with _ | _ <;> rw [hFe] at hF <;> exact absurd hF (by simp)

lemma queens_unfold (N : Int) (s : String) (bo : SolverClass → Oracle)
    (hbo : ∀ c, ValidOracle (N.toNat * N.toNat) (bo c)) (c : SolverClass)
    (hN : ¬ N ≤ 3) (hsel : selectClass s = some c) :
    queens N s bo hbo =
      match enumAll (N.toNat * N.toNat) (bo c) (hbo c) (queensClauses N.toNat) with
      | EnumOut.done l => ⟨Except.ok l.length, l, true, l.length + 1, 1⟩
      | EnumOut.fault l => ⟨Except.error (), l, true, l.length + 1, 0⟩ := by
  unfold queens
  rw [if_neg hN, hsel]

/-- C3: for every integer `N ≤ 3` (including `0` and negative `N`) and every
solver name, `queens` returns 0 without constructing a solver session and
without issuing any solver query. -/
theorem c3_small_N_short_circuit (N : Int) (hN : N ≤ 3) (s : String)
    (bo : SolverClass → Oracle) (hbo : ∀ c, ValidOracle (N.toNat * N.toNat) (bo c)) :
    queens N s bo hbo =
      ⟨Except.ok 0, [], false, 0, 0⟩ := by
  unfold queens
  rw [if_pos hN]

/-- Witness for C3 at `N = -1`, `s = "minisat"`, with the reference backend. -/
theorem c3_small_N_short_circuit_witness :
    (-1 : Int) ≤ 3 ∧
      queens (-1) "minisat" (fun _ => bruteOracle ((-1 : Int).toNat * (-1 : Int).toNat))
          (fun _ => bruteOracle_valid _) =
        ⟨Except.ok 0, [], false, 0, 0⟩ :=
  ⟨by decide, c3_small_N_short_circuit (-1) (by decide) "minisat" _ _⟩

/-- C4: a backend fault during the enumeration loop surfaces as the
propagated-exception result, distinct from a returned count: a fault at the
current query makes the loop itself fault, a fault deeper in the loop
propagates outward (it is never converted into a normal exit), and at the
`queens` level a faulted enumeration yields the error outcome and never the
count accumulated so far. -/
theorem c4_fault_surfaced (N : Int) (s : String) (bo : SolverClass → Oracle)
    (hbo : ∀ c, ValidOracle (N.toNat * N.toNat) (bo c)) (c : SolverClass)
    (hN : 4 ≤ N) (hsel : selectClass s = some c) :
    (∀ F, (bo c).solve F = SolveResult.error →
        enumAll (N.toNat * N.toNat) (bo c) (hbo c) F = EnumOut.fault []) ∧
      (∀ F m l, (bo c).solve F = SolveResult.sat m →
        enumAll (N.toNat * N.toNat) (bo c) (hbo c) (F ++ [blocking_clause m]) =
            EnumOut.fault l →
        enumAll (N.toNat * N.toNat) (bo c) (hbo c) F = EnumOut.fault (m :: l)) ∧
      (∀ l, enumAll (N.toNat * N.toNat) (bo c) (hbo c) (queensClauses N.toNat) =
            EnumOut.fault l →
        (queens N s bo hbo).result = Except.error () ∧
          ∀ k, (queens N s bo hbo).result ≠ Except.ok k) := by
  refine ⟨?_, ?_, ?_⟩
  · intro F hF
    exact enumAll_error _ _ _ _ hF
  · intro F m l hF henum
    rw [enumAll_sat _ _ _ _ _ hF, henum]
  · intro l henum
    rw [queens_unfold N s bo hbo c (by omega) hsel, henum]
    exact ⟨rfl, fun k => by simp⟩

/-- Witness for C4 at `N = 4`, `s = "glucose3"`, with an always-faulting
backend. -/
theorem c4_fault_surfaced_witness :
    (4 : Int) ≤ 4 ∧ selectClass "glucose3" = some SolverClass.Glucose3 ∧
      (queens 4 "glucose3" (fun _ => errOracle) (fun _ => errOracle_valid _)).result =
        Except.error () := by
  refine ⟨by decide, by decide, ?_⟩
  have h := c4_fault_surfaced 4 "glucose3" (fun _ => errOracle)
    (fun _ => errOracle_valid _) SolverClass.Glucose3 (by decide) (by decide)
  exact (h.2.2 [] (h.1 (queensClauses (4 : Int).toNat) rfl)).1

lemma queens_fault_outcome (N : Int) (s : String) (bo : SolverClass → Oracle)
    (hbo : ∀ c, ValidOracle (N.toNat * N.toNat) (bo c)) (c : SolverClass)
    (hN : ¬ N ≤ 3) (hsel : selectClass s = some c) (l : List (List Int))
    (henum : enumAll (N.toNat * N.toNat) (bo c) (hbo c) (queensClauses N.toNat) =
      EnumOut.fault l) :
    queens N s bo hbo = ⟨Except.error (), l, true, l.length + 1, 0⟩ := by
  rw [queens_unfold N s bo hbo c hN hsel, henum]

lemma queens_done_outcome (N : Int) (s : String) (bo : SolverClass → Oracle)
    (hbo : ∀ c, ValidOracle (N.toNat * N.toNat) (bo c)) (c : SolverClass)
    (hN : ¬ N ≤ 3) (hsel : selectClass s = some c) (l : List (List Int))
    (henum : enumAll (N.toNat * N.toNat) (bo c) (hbo c) (queensClauses N.toNat) =
      EnumOut.done l) :
    queens N s bo hbo = ⟨Except.ok l.length, l, true, l.length + 1, 1⟩ := by
  rw [queens_unfold N s bo hbo c hN hsel, henum]

/-- C5 claims every constructed session is released exactly once on every
control path.  The code violates this on the fault path: with `N = 4` and a
backend whose first `solve` raises, a session is constructed, the exception
propagates past `solver.delete()`, and no release happens. -/
theorem c5_fault_path_no_release :
    queens 4 "glucose3" (fun _ => errOracle) (fun _ => errOracle_valid _) =
      ⟨Except.error (), [], true, 1, 0⟩ :=
  queens_fault_outcome 4 "glucose3" (fun _ => errOracle) (fun _ => errOracle_valid _)
    SolverClass.Glucose3 (by decide) (by decide) []
    (enumAll_error _ _ _ _ rfl)

/-- C5 contrast: on the normal path (backend answers without faulting) the
session is released exactly once. -/
theorem c5_normal_path_single_release (N : Int) (s : String)
    (bo : SolverClass → Oracle)
    (hbo : ∀ c, ValidOracle (N.toNat * N.toNat) (bo c)) (c : SolverClass)
    (hN : 4 ≤ N) (hsel : selectClass s = some c) (hnf : NoFault (bo c)) :
    (queens N s bo hbo).constructed = true ∧ (queens N s bo hbo).releases = 1 := by
  obtain ⟨l, hl, -⟩ :=
    enumAll_noFault (N.toNat * N.toNat) (bo c) (hbo c) hnf (queensClauses N.toNat)
  rw [queens_unfold N s bo hbo c (by omega) hsel, hl]
  exact ⟨rfl, rfl⟩

/-- Witness for the C5 contrast theorem at `N = 4` with the reference
backend. -/
theorem c5_normal_path_single_release_witness :
    (4 : Int) ≤ 4 ∧
      (queens 4 "glucose3" (fun _ => bruteOracle ((4 : Int).toNat * (4 : Int).toNat))
          (fun _ => bruteOracle_valid _)).releases = 1 :=
  ⟨by decide,
    (c5_normal_path_single_release 4 "glucose3" _ _ SolverClass.Glucose3 (by decide)
      (by decide) (bruteOracle_noFault _)).2⟩

/-- C6: when the backend reports a model `m`, the loop body extends the
clause set by exactly the one clause `blocking_clause m`; that clause is the
literal-wise negation of `m` (both branches of the source's sign test negate
the literal); and for a complete model list it is falsified by precisely the
reported assignment and no other complete assignment. -/
theorem c6_blocking (n : Nat) (o : Oracle) (h : ValidOracle n o) (F : Formula)
    (m : List Int) (hs : o.solve F = SolveResult.sat m) :
    (blocking_clause m = m.map (fun lit => -lit)) ∧
      (enumAll n o h F =
        match enumAll n o h (F ++ [blocking_clause m]) with
        | EnumOut.done l => EnumOut.done (m :: l)
        | EnumOut.fault l => EnumOut.fault (m :: l)) ∧
      (∀ a b : Fin n → Bool, m = modelLits n a →
        (clauseSat n b (blocking_clause m) = false ↔ b = a)) := by
  refine ⟨blocking_clause_eq_neg m, enumAll_sat n o h F m hs, ?_⟩
  rintro a b rfl
  exact clauseSat_blocking n a b

/-- Witness for C6 with a one-variable backend answering the empty
formula. -/
theorem c6_blocking_witness :
    oneShotOracle.solve [] = SolveResult.sat (modelLits 1 (fun _ => false)) ∧
      (blocking_clause (modelLits 1 (fun _ => false)) =
        (modelLits 1 (fun _ => false)).map (fun lit => -lit)) ∧
      (clauseSat 1 (fun _ => true)
          (blocking_clause (modelLits 1 (fun _ => false))) = false ↔
        (fun _ : Fin 1 => true) = (fun _ => false)) := by
  have h := c6_blocking 1 oneShotOracle oneShotOracle_valid [] _ rfl
  exact ⟨rfl, h.1, h.2.2 (fun _ => false) (fun _ => true) rfl⟩

/-- C7: within a single `queens` invocation, no two accepted models are
identical as complete assignments over the `N * N` variables. -/
theorem c7_accepted_models_distinct (N : Int) (s : String)
    (bo : SolverClass → Oracle)
    (hbo : ∀ c, ValidOracle (N.toNat * N.toNat) (bo c)) :
    ((queens N s bo hbo).models).Pairwise
      (fun m1 m2 =>
        decodeAssign (N.toNat * N.toNat) m1 ≠ decodeAssign (N.toNat * N.toNat) m2) := by
  by_cases hN : N ≤ 3
  · unfold queens
    rw [if_pos hN]
    exact List.Pairwise.nil
  · rcases hsel : selectClass s with _ | c
    · unfold queens
      rw [if_neg hN, hsel]
      exact List.Pairwise.nil
    · have hmodels := (enumAll_models (N.toNat * N.toNat) (bo c) (hbo c)
        (queensClauses N.toNat)).2
      cases henum : enumAll (N.toNat * N.toNat) (bo c) (hbo c)
          (queensClauses N.toNat) with
      | done l =>
        rw [queens_done_outcome N s bo hbo c hN hsel l henum]
        rw [henum] at hmodels
        exact hmodels
      | fault l =>
        rw [queens_fault_outcome N s bo hbo c hN hsel l henum]
        rw [henum] at hmodels
        exact hmodels

/-- Witness for C7 at `N = 4` with the reference backend. -/
theorem c7_accepted_models_distinct_witness :
    ((queens 4 "glucose3" (fun _ => bruteOracle ((4 : Int).toNat * (4 : Int).toNat))
        (fun _ => bruteOracle_valid _)).models).Pairwise
      (fun m1 m2 =>
        decodeAssign ((4 : Int).toNat * (4 : Int).toNat) m1 ≠
          decodeAssign ((4 : Int).toNat * (4 : Int).toNat) m2) :=
  c7_accepted_models_distinct 4 "glucose3" _ _

/-- C8: for `N ≥ 1`, `var(i, j) = i*N + j + 1` maps the board cells
bijectively onto the variable identifiers `1 .. N*N` (in particular every
identifier is at least 1), and `print_solution` decodes models through the
identical mapping. -/
theorem c8_var_bijection (N : Nat) (hN : 1 ≤ N) :
    (∀ i j, i < N → j < N → 1 ≤ var N i j ∧ var N i j ≤ N * N) ∧
      (∀ i j i' j', i < N → j < N → i' < N → j' < N →
        var N i j = var N i' j' → i = i' ∧ j = j') ∧
      (∀ v, 1 ≤ v → v ≤ N * N → ∃ i j, i < N ∧ j < N ∧ var N i j = v) ∧
      (∀ i j, PrintSolution.var N i j = var N i j) ∧
      (∀ model i j, i < N → j < N →
        ((PrintSolution.board N model).get? i >>= fun row => row.get? j) =
          some (if ((var N i j : Nat) : Int) ∈ model then 'Q' else '.')) := by
  refine ⟨?_, ?_, ?_, fun i j => rfl, ?_⟩
  · intro i j hi hj
    unfold var
    refine ⟨by omega, ?_⟩
    have h1 : (i + 1) * N ≤ N * N := Nat.mul_le_mul_right N hi
    have h2 : (i + 1) * N = i * N + N := by ring
    omega
  · intro i j i' j' hi hj hi' hj' hv
    unfold var at hv
    have hii' : i = i' := by
      rcases Nat.lt_trichotomy i i' with hlt | heq | hgt
      · have h1 : (i + 1) * N ≤ i' * N := Nat.mul_le_mul_right N hlt
        have h2 : (i + 1) * N = i * N + N := by ring
        omega
      · exact heq
      · have h1 : (i' + 1) * N ≤ i * N := Nat.mul_le_mul_right N hgt
        have h2 : (i' + 1) * N = i' * N + N := by ring
        omega
    subst hii'
    exact ⟨rfl, by omega⟩
  · intro v hv1 hv2
    refine ⟨(v - 1) / N, (v - 1) % N,
      (Nat.div_lt_iff_lt_mul (by omega)).mpr (by omega),
      Nat.mod_lt _ (by omega), ?_⟩
    unfold var
    have hdm := Nat.div_add_mod (v - 1) N
    have hc : (v - 1) / N * N = N * ((v - 1) / N) := Nat.mul_comm _ _
    omega
  · intro model i j hi hj
    unfold PrintSolution.board
    rw [List.get?_eq_getElem?, List.getElem?_map, List.getElem?_range hi]
    simp only [Option.map_some', Option.bind_eq_bind, Option.some_bind]
    rw [List.get?_eq_getElem?, List.getElem?_map, List.getElem?_range hj]
    rfl

/-- Witness for C8 at `N = 4`. -/
theorem c8_var_bijection_witness :
    1 ≤ 4 ∧ ∃ i j, i < 4 ∧ j < 4 ∧ var 4 i j = 7 :=
  ⟨by decide, (c8_var_bijection 4 (by decide)).2.2.1 7 (by decide) (by decide)⟩

/-- C9: backend selection is case-insensitive over the recognized names
(after lower-casing, `"glucose3"`, `"minisat"` and `"cadical"` select their
classes), and an unrecognized name silently selects the glucose3 backend:
the selection still succeeds and `queens` behaves exactly as if called with
`"glucose3"`. -/
theorem c9_case_insensitive_fallback (s : String) :
    (selectClass s =
      some (if strLower s = "minisat" then SolverClass.Minisat22
        else if strLower s = "cadical" then SolverClass.Cadical103
        else SolverClass.Glucose3)) ∧
      (strLower s ∉ ["glucose3", "minisat", "cadical"] →
        selectClass s = some SolverClass.Glucose3 ∧
          ∀ (N : Int) (bo : SolverClass → Oracle)
            (hbo : ∀ c, ValidOracle (N.toNat * N.toNat) (bo c)),
            queens N s bo hbo = queens N "glucose3" bo hbo) := by
  refine ⟨selectClass_eq s, fun hns => ?_⟩
  simp only [List.mem_cons, List.not_mem_nil, or_false, not_or] at hns
  obtain ⟨h1, h2, h3⟩ := hns
  have hsel : selectClass s = some SolverClass.Glucose3 := by
    rw [selectClass_eq s, if_neg h2, if_neg h3]
  refine ⟨hsel, fun N bo hbo => ?_⟩
  have hselg : selectClass "glucose3" = some SolverClass.Glucose3 := by decide
  unfold queens
  rw [hsel, hselg]

/-- Witness for C9 with the unrecognized name `"UnKnOwN"` at `N = 4`. -/
theorem c9_case_insensitive_fallback_witness :
    strLower "UnKnOwN" ∉ ["glucose3", "minisat", "cadical"] ∧
      selectClass "UnKnOwN" = some SolverClass.Glucose3 ∧
      queens 4 "UnKnOwN" (fun _ => bruteOracle ((4 : Int).toNat * (4 : Int).toNat))
          (fun _ => bruteOracle_valid _) =
        queens 4 "glucose3" (fun _ => bruteOracle ((4 : Int).toNat * (4 : Int).toNat))
          (fun _ => bruteOracle_valid _) := by
  have h := (c9_case_insensitive_fallback "UnKnOwN").2 (by decide)
  exact ⟨by decide, h.1, h.2 4 _ _⟩

/-- C10: the guarded dictionary access for the backend class is total: for
every solver-name string the lookup yields some class, and for `N ≥ 4`
`queens` always proceeds with the backend class so obtained (the
missing-key branch is unreachable). -/
theorem c10_lookup_total (s : String) :
    (selectClass s).isSome = true ∧
      ∀ (N : Int) (bo : SolverClass → Oracle)
        (hbo : ∀ c, ValidOracle (N.toNat * N.toNat) (bo c)), 4 ≤ N →
        ∃ c, selectClass s = some c ∧
          queens N s bo hbo =
            match enumAll (N.toNat * N.toNat) (bo c) (hbo c) (queensClauses N.toNat) with
            | EnumOut.done l => ⟨Except.ok l.length, l, true, l.length + 1, 1⟩
            | EnumOut.fault l => ⟨Except.error (), l, true, l.length + 1, 0⟩ := by
  refine ⟨by rw [selectClass_eq s]; rfl, fun N bo hbo hN => ?_⟩
  exact ⟨_, selectClass_eq s,
    queens_unfold N s bo hbo _ (by omega) (selectClass_eq s)⟩

/-- Witness for C10 with an arbitrarily-cased unrecognized name at
`N = 4`. -/
theorem c10_lookup_total_witness :
    (selectClass "NoSuchSolver").isSome = true ∧
      ∃ c, selectClass "NoSuchSolver" = some c ∧
        queens 4 "NoSuchSolver" (fun _ => bruteOracle ((4 : Int).toNat * (4 : Int).toNat))
            (fun _ => bruteOracle_valid _) =
          match enumAll ((4 : Int).toNat * (4 : Int).toNat) ((fun _ => bruteOracle ((4 : Int).toNat * (4 : Int).toNat)) c)
              ((fun _ => bruteOracle_valid ((4 : Int).toNat * (4 : Int).toNat)) c)
              (queensClauses (4 : Int).toNat) with
          | EnumOut.done l => ⟨Except.ok l.length, l, true, l.length + 1, 1⟩
          | EnumOut.fault l => ⟨Except.error (), l, true, l.length + 1, 0⟩ :=
  ⟨(c10_lookup_total "NoSuchSolver").1,
    (c10_lookup_total "NoSuchSolver").2 4 _ _ (by decide)⟩

lemma mem_listPairs_append_singleton {α : Type} (l : List α) (a : α) (p : α × α) :
    p ∈ listPairs (l ++ [a]) ↔ p ∈ listPairs l ∨ ∃ x ∈ l, p = (x, a) := by
  induction l with
  | nil => simp [listPairs]
  | cons x xs ih =>
    rw [List.cons_append]
    show p ∈ (xs ++ [a]).map (fun y => (x, y)) ++ listPairs (xs ++ [a]) ↔ _
    rw [List.mem_append]
    constructor
    · rintro (hp | hp)
      · obtain ⟨y, hy, rfl⟩ := List.mem_map.mp hp
        rcases List.mem_append.mp hy with hy' | hy'
        · exact Or.inl (List.mem_append_left _ (List.mem_map.mpr ⟨y, hy', rfl⟩))
        · have hya : y = a := by simpa using hy'
          subst hya
          exact Or.inr ⟨x, List.mem_cons_self x xs, rfl⟩
      · rcases (ih).mp hp with h | ⟨w, hw, rfl⟩
        · exact Or.inl (List.mem_append_right _ h)
        · exact Or.inr ⟨w, List.mem_cons_of_mem x hw, rfl⟩
    · rintro (hp | ⟨w, hw, rfl⟩)
      · rcases List.mem_append.mp hp with hp' | hp'
        · obtain ⟨y, hy, rfl⟩ := List.mem_map.mp hp'
          exact Or.inl (List.mem_map.mpr ⟨y, List.mem_append_left _ hy, rfl⟩)
        · exact Or.inr (ih.mpr (Or.inl hp'))
      · rcases List.mem_cons.mp hw with rfl | hw'
        · exact Or.inl (List.mem_map.mpr
            ⟨a, List.mem_append_right _ (List.mem_singleton_self a), rfl⟩)
        · exact Or.inr (ih.mpr (Or.inr ⟨w, hw', rfl⟩))

lemma mem_listPairs_filterMap_range (f : Nat → Option Nat) (N : Nat) (x y : Nat) :
    ((x, y) ∈ listPairs ((List.range N).filterMap f)) ↔
      ∃ i1 i2, i1 < i2 ∧ i2 < N ∧ f i1 = some x ∧ f i2 = some y := by
  induction N with
  | zero => simp [listPairs]
  | succ M ih =>
    rw [List.range_succ, List.filterMap_append]
    rcases hfM : f M with _ | z
    · simp only [List.filterMap_cons, hfM, List.filterMap_nil, List.append_nil]
      rw [ih]
      constructor
      · rintro ⟨i1, i2, h12, h2M, hf1, hf2⟩
        exact ⟨i1, i2, h12, by omega, hf1, hf2⟩
      · rintro ⟨i1, i2, h12, h2M, hf1, hf2⟩
        refine ⟨i1, i2, h12, ?_, hf1, hf2⟩
        rcases Nat.lt_or_ge i2 M with h | h
        · exact h
        · exfalso
          have : i2 = M := by omega
          rw [this, hfM] at hf2
          exact Option.noConfusion hf2
    · simp only [List.filterMap_cons, hfM, List.filterMap_nil]
      rw [mem_listPairs_append_singleton, ih]
      constructor
      · rintro (⟨i1, i2, h12, h2M, hf1, hf2⟩ | ⟨w, hw, hweq⟩)
        · exact ⟨i1, i2, h12, by omega, hf1, hf2⟩
        · obtain ⟨i1, hi1, hf1⟩ := List.mem_filterMap.mp hw
          have hx : w = x := congrArg Prod.fst hweq.symm
          have hy : z = y := congrArg Prod.snd hweq.symm
          refine ⟨i1, M, List.mem_range.mp hi1, by omega, ?_, ?_⟩
          · rw [hf1, hx]
          · rw [hfM, hy]
      · rintro ⟨i1, i2, h12, h2M, hf1, hf2⟩
        rcases Nat.lt_or_ge i2 M with h | h
        · exact Or.inl ⟨i1, i2, h12, h, hf1, hf2⟩
        · have hi2M : i2 = M := by omega
          rw [hi2M, hfM] at hf2
          have hzy : z = y := by injection hf2
          refine Or.inr ⟨x, ?_, ?_⟩
          · exact List.mem_filterMap.mpr ⟨i1, List.mem_range.mpr (by omega), hf1⟩
          · rw [hzy]

lemma mem_rows_segment (N : Nat) (c : Clause) :
    (c ∈ (List.range N).flatMap (fun i =>
      ((List.range N).map (fun j => ((var N i j : Nat) : Int)))
        :: (List.range N).flatMap (fun j1 =>
          (List.range' (j1+1) (N - (j1+1))).map (fun j2 =>
            [-(var N i j1 : Int), -(var N i j2 : Int)])))) ↔
      RowALOClause N c ∨ RowAMOClause N c := by
  rw [List.mem_flatMap]
  constructor
  · rintro ⟨i, hi, hc⟩
    have hiN := List.mem_range.mp hi
    rcases List.mem_cons.mp hc with rfl | hc'
    · exact Or.inl ⟨i, hiN, rfl⟩
    · obtain ⟨j1, hj1, hc2⟩ := List.mem_flatMap.mp hc'
      obtain ⟨j2, hj2, rfl⟩ := List.mem_map.mp hc2
      have hj1N := List.mem_range.mp hj1
      have hj2r := List.mem_range'_1.mp hj2
      exact Or.inr ⟨i, j1, j2, hiN, by omega, by omega, rfl⟩
  · rintro (⟨i, hiN, rfl⟩ | ⟨i, j1, j2, hiN, h12, h2N, rfl⟩)
    · exact ⟨i, List.mem_range.mpr hiN, List.mem_cons_self _ _⟩
    · refine ⟨i, List.mem_range.mpr hiN, List.mem_cons_of_mem _ ?_⟩
      refine List.mem_flatMap.mpr ⟨j1, List.mem_range.mpr (by omega), ?_⟩
      refine List.mem_map.mpr ⟨j2, List.mem_range'_1.mpr ⟨by omega, by omega⟩, rfl⟩

lemma mem_cols_segment (N : Nat) (c : Clause) :
    (c ∈ (List.range N).flatMap (fun j =>
      (List.range N).flatMap (fun i1 =>
        (List.range' (i1+1) (N - (i1+1))).map (fun i2 =>
          [-(var N i1 j : Int), -(var N i2 j : Int)])))) ↔
      ColAMOClause N c := by
  rw [List.mem_flatMap]
  constructor
  · rintro ⟨j, hj, hc⟩
    obtain ⟨i1, hi1, hc2⟩ := List.mem_flatMap.mp hc
    obtain ⟨i2, hi2, rfl⟩ := List.mem_map.mp hc2
    have hi2r := List.mem_range'_1.mp hi2
    exact ⟨j, i1, i2, List.mem_range.mp hj, by omega, by omega, rfl⟩
  · rintro ⟨j, i1, i2, hjN, h12, h2N, rfl⟩
    refine ⟨j, List.mem_range.mpr hjN, ?_⟩
    refine List.mem_flatMap.mpr ⟨i1, List.mem_range.mpr (by omega), ?_⟩
    exact List.mem_map.mpr ⟨i2, List.mem_range'_1.mpr ⟨by omega, by omega⟩, rfl⟩

lemma mem_pairClauses (l : List Nat) (c : Clause) :
    c ∈ pairClauses l ↔ ∃ x y, (x, y) ∈ listPairs l ∧ c = [-(x : Int), -(y : Int)] := by
  unfold pairClauses
  rw [List.mem_map]
  constructor
  · rintro ⟨p, hp, rfl⟩
    exact ⟨p.1, p.2, hp, rfl⟩
  · rintro ⟨x, y, hp, rfl⟩
    exact ⟨(x, y), hp, rfl⟩

lemma mem_listPairs_diagVars (N : Nat) (d : Int) (x y : Nat) :
    ((x, y) ∈ listPairs (diagVars N d)) ↔
      ∃ i1 j1 i2 j2 : Nat, i1 < i2 ∧ i2 < N ∧ j1 < N ∧ j2 < N ∧
        (i1 : Int) - (j1 : Int) = d ∧ (i2 : Int) - (j2 : Int) = d ∧
        x = var N i1 j1 ∧ y = var N i2 j2 := by
  unfold diagVars
  rw [mem_listPairs_filterMap_range]
  constructor
  · rintro ⟨i1, i2, h12, h2N, hf1, hf2⟩
    have hf1' : (if 0 ≤ (i1 : Int) - d ∧ (i1 : Int) - d < (N : Int) then
        some (var N i1 ((i1 : Int) - d).toNat) else none) = some x := hf1
    have hf2' : (if 0 ≤ (i2 : Int) - d ∧ (i2 : Int) - d < (N : Int) then
        some (var N i2 ((i2 : Int) - d).toNat) else none) = some y := hf2
    by_cases hc1 : 0 ≤ (i1 : Int) - d ∧ (i1 : Int) - d < (N : Int)
    · by_cases hc2 : 0 ≤ (i2 : Int) - d ∧ (i2 : Int) - d < (N : Int)
      · rw [if_pos hc1] at hf1'
        rw [if_pos hc2] at hf2'
        refine ⟨i1, ((i1 : Int) - d).toNat, i2, ((i2 : Int) - d).toNat,
          h12, h2N, by omega, by omega, by omega, by omega, ?_, ?_⟩
        · exact (Option.some.injEq .. ▸ hf1').symm
        · exact (Option.some.injEq .. ▸ hf2').symm
      · rw [if_neg hc2] at hf2'
        exact Option.noConfusion hf2'
    · rw [if_neg hc1] at hf1'
      exact Option.noConfusion hf1'
  · rintro ⟨i1, j1, i2, j2, h12, h2N, hj1, hj2, hd1, hd2, rfl, rfl⟩
    refine ⟨i1, i2, h12, h2N, ?_, ?_⟩
    · show (if 0 ≤ (i1 : Int) - d ∧ (i1 : Int) - d < (N : Int) then
        some (var N i1 ((i1 : Int) - d).toNat) else none) = _
      rw [if_pos (by omega)]
      have hj : ((i1 : Int) - d).toNat = j1 := by omega
      rw [hj]
    · show (if 0 ≤ (i2 : Int) - d ∧ (i2 : Int) - d < (N : Int) then
        some (var N i2 ((i2 : Int) - d).toNat) else none) = _
      rw [if_pos (by omega)]
      have hj : ((i2 : Int) - d).toNat = j2 := by omega
      rw [hj]

lemma mem_listPairs_antiDiagVars (N : Nat) (d : Int) (x y : Nat) :
    ((x, y) ∈ listPairs (antiDiagVars N d)) ↔
      ∃ i1 j1 i2 j2 : Nat, i1 < i2 ∧ i2 < N ∧ j1 < N ∧ j2 < N ∧
        (i1 : Int) + (j1 : Int) = d ∧ (i2 : Int) + (j2 : Int) = d ∧
        x = var N i1 j1 ∧ y = var N i2 j2 := by
  unfold antiDiagVars
  rw [mem_listPairs_filterMap_range]
  constructor
  · rintro ⟨i1, i2, h12, h2N, hf1, hf2⟩
    have hf1' : (if 0 ≤ d - (i1 : Int) ∧ d - (i1 : Int) < (N : Int) then
        some (var N i1 (d - (i1 : Int)).toNat) else none) = some x := hf1
    have hf2' : (if 0 ≤ d - (i2 : Int) ∧ d - (i2 : Int) < (N : Int) then
        some (var N i2 (d - (i2 : Int)).toNat) else none) = some y := hf2
    by_cases hc1 : 0 ≤ d - (i1 : Int) ∧ d - (i1 : Int) < (N : Int)
    · by_cases hc2 : 0 ≤ d - (i2 : Int) ∧ d - (i2 : Int) < (N : Int)
      · rw [if_pos hc1] at hf1'
        rw [if_pos hc2] at hf2'
        refine ⟨i1, (d - (i1 : Int)).toNat, i2, (d - (i2 : Int)).toNat,
          h12, h2N, by omega, by omega, by omega, by omega, ?_, ?_⟩
        · exact (Option.some.injEq .. ▸ hf1').symm
        · exact (Option.some.injEq .. ▸ hf2').symm
      · rw [if_neg hc2] at hf2'
        exact Option.noConfusion hf2'
    · rw [if_neg hc1] at hf1'
      exact Option.noConfusion hf1'
  · rintro ⟨i1, j1, i2, j2, h12, h2N, hj1, hj2, hd1, hd2, rfl, rfl⟩
    refine ⟨i1, i2, h12, h2N, ?_, ?_⟩
    · show (if 0 ≤ d - (i1 : Int) ∧ d - (i1 : Int) < (N : Int) then
        some (var N i1 (d - (i1 : Int)).toNat) else none) = _
      rw [if_pos (by omega)]
      have hj : (d - (i1 : Int)).toNat = j1 := by omega
      rw [hj]
    · show (if 0 ≤ d - (i2 : Int) ∧ d - (i2 : Int) < (N : Int) then
        some (var N i2 (d - (i2 : Int)).toNat) else none) = _
      rw [if_pos (by omega)]
      have hj : (d - (i2 : Int)).toNat = j2 := by omega
      rw [hj]

lemma mem_diag_segment (N : Nat) (c : Clause) :
    (c ∈ (List.range (2*N-1)).flatMap (fun t =>
        pairClauses (diagVars N ((t : Int) - ((N : Int) - 1))))) ↔ DiagClause N c := by
  rw [List.mem_flatMap]
  constructor
  · rintro ⟨t, ht, hc⟩
    obtain ⟨x, y, hp, rfl⟩ := (mem_pairClauses _ _).mp hc
    obtain ⟨i1, j1, i2, j2, h12, h2N, hj1, hj2, hd1, hd2, rfl, rfl⟩ :=
      (mem_listPairs_diagVars _ _ _ _).mp hp
    have htr := List.mem_range.mp ht
    exact ⟨(t : Int) - ((N : Int) - 1), by omega, by omega,
      i1, j1, i2, j2, h12, h2N, hj1, hj2, hd1, hd2, rfl⟩
  · rintro ⟨d, hdl, hdu, i1, j1, i2, j2, h12, h2N, hj1, hj2, hd1, hd2, rfl⟩
    refine ⟨(d + ((N : Int) - 1)).toNat, List.mem_range.mpr (by omega), ?_⟩
    refine (mem_pairClauses _ _).mpr ⟨var N i1 j1, var N i2 j2, ?_, rfl⟩
    have hdt : (((d + ((N : Int) - 1)).toNat : Nat) : Int) - ((N : Int) - 1) = d := by
      omega
    rw [hdt]
    exact (mem_listPairs_diagVars _ _ _ _).mpr
      ⟨i1, j1, i2, j2, h12, h2N, hj1, hj2, hd1, hd2, rfl, rfl⟩

lemma mem_anti_segment (N : Nat) (c : Clause) :
    (c ∈ (List.range (2*N-1)).flatMap (fun t =>
        pairClauses (antiDiagVars N (t : Int)))) ↔ AntiDiagClause N c := by
  rw [List.mem_flatMap]
  constructor
  · rintro ⟨t, ht, hc⟩
    obtain ⟨x, y, hp, rfl⟩ := (mem_pairClauses _ _).mp hc
    obtain ⟨i1, j1, i2, j2, h12, h2N, hj1, hj2, hd1, hd2, rfl, rfl⟩ :=
      (mem_listPairs_antiDiagVars _ _ _ _).mp hp
    have htr := List.mem_range.mp ht
    exact ⟨(t : Int), by omega, by omega,
      i1, j1, i2, j2, h12, h2N, hj1, hj2, hd1, hd2, rfl⟩
  · rintro ⟨d, hdl, hdu, i1, j1, i2, j2, h12, h2N, hj1, hj2, hd1, hd2, rfl⟩
    refine ⟨d.toNat, List.mem_range.mpr (by omega), ?_⟩
    have hdt : ((d.toNat : Nat) : Int) = d := by omega
    rw [hdt]
    exact (mem_pairClauses _ _).mpr ⟨var N i1 j1, var N i2 j2,
      (mem_listPairs_antiDiagVars _ _ _ _).mpr
        ⟨i1, j1, i2, j2, h12, h2N, hj1, hj2, hd1, hd2, rfl, rfl⟩, rfl⟩

lemma mem_queensClauses (N : Nat) (c : Clause) :
    c ∈ queensClauses N ↔
      RowALOClause N c ∨ RowAMOClause N c ∨ ColAMOClause N c ∨
        DiagClause N c ∨ AntiDiagClause N c := by
  unfold queensClauses
  simp only [List.mem_append]
  rw [mem_rows_segment, mem_cols_segment, mem_diag_segment, mem_anti_segment]
  tauto

/-- C2: for `N ≥ 4` the clause sequence built by `queens` before any solver
call consists of exactly the row at-least-one clauses, the row and column
pairwise at-most-one clauses (with no column at-least-one clause), and one
pairwise-exclusion clause per unordered pair of cells on each main diagonal
(`row - col = d`, `d ∈ [-(N-1), N-1]`) and each anti-diagonal
(`row + col = d`, `d ∈ [0, 2N-2]`) — and no other clauses. -/
theorem c2_clause_families (N : Nat) (hN : 4 ≤ N) (c : Clause) :
    c ∈ queensClauses N ↔
      RowALOClause N c ∨ RowAMOClause N c ∨ ColAMOClause N c ∨
        DiagClause N c ∨ AntiDiagClause N c :=
  mem_queensClauses N c

/-- Witness for C2 at `N = 4` on the first row at-most-one clause. -/
theorem c2_clause_families_witness :
    4 ≤ 4 ∧
      ([-(1 : Int), -(2 : Int)] ∈ queensClauses 4 ↔
        RowALOClause 4 [-(1 : Int), -(2 : Int)] ∨
          RowAMOClause 4 [-(1 : Int), -(2 : Int)] ∨
          ColAMOClause 4 [-(1 : Int), -(2 : Int)] ∨
          DiagClause 4 [-(1 : Int), -(2 : Int)] ∨
          AntiDiagClause 4 [-(1 : Int), -(2 : Int)]) :=
  ⟨by decide, c2_clause_families 4 (by decide) _⟩

lemma litSat_natCast (n : Nat) (a : Fin n → Bool) (v : Nat) (hv : 1 ≤ v) :
    litSat n a ((v : Nat) : Int) = evalVar n a v := by
  unfold litSat
  rw [if_pos (by exact_mod_cast hv), Int.toNat_natCast]

lemma litSat_neg_natCast (n : Nat) (a : Fin n → Bool) (v : Nat) (hv : 1 ≤ v) :
    litSat n a (-((v : Nat) : Int)) = ! evalVar n a v := by
  unfold litSat
  have h0 : (0 : Int) < ((v : Nat) : Int) := by exact_mod_cast hv
  rw [if_neg (by omega), neg_neg, Int.toNat_natCast]

lemma clauseSat_pair (n : Nat) (a : Fin n → Bool) (x y : Nat)
    (hx : 1 ≤ x) (hy : 1 ≤ y) :
    clauseSat n a [-(x : Int), -(y : Int)] = true ↔
      ¬(evalVar n a x = true ∧ evalVar n a y = true) := by
  unfold clauseSat
  rw [List.any_cons, List.any_cons, List.any_nil,
    litSat_neg_natCast n a x hx, litSat_neg_natCast n a y hy]
  cases hA : evalVar n a x <;> cases hB : evalVar n a y <;> simp

lemma clauseSat_rowALO (N : Nat) (a : Fin (N * N) → Bool) (i : Nat) :
    clauseSat (N * N) a ((List.range N).map (fun j => ((var N i j : Nat) : Int))) = true ↔
      ∃ j, j < N ∧ queenB N a i j = true := by
  unfold clauseSat
  rw [List.any_eq_true]
  constructor
  · rintro ⟨lit, hlit, hsat⟩
    obtain ⟨j, hj, rfl⟩ := List.mem_map.mp hlit
    rw [litSat_natCast _ _ _ (by unfold var; omega)] at hsat
    exact ⟨j, List.mem_range.mp hj, hsat⟩
  · rintro ⟨j, hj, hq⟩
    refine ⟨((var N i j : Nat) : Int),
      List.mem_map.mpr ⟨j, List.mem_range.mpr hj, rfl⟩, ?_⟩
    rw [litSat_natCast _ _ _ (by unfold var; omega)]
    exact hq

lemma cnfSat_queensClauses_iff (N : Nat) (a : Fin (N * N) → Bool) :
    cnfSat (N * N) a (queensClauses N) = true ↔ BoardOK N a := by
  unfold cnfSat
  rw [List.all_eq_true]
  constructor
  · intro h
    refine ⟨?_, ?_, ?_, ?_, ?_⟩
    · intro i hi
      have hc := h _ ((mem_queensClauses N _).mpr (Or.inl ⟨i, hi, rfl⟩))
      exact (clauseSat_rowALO N a i).mp hc
    · intro i j1 j2 hi h12 h2N
      have hc := h _ ((mem_queensClauses N _).mpr
        (Or.inr (Or.inl ⟨i, j1, j2, hi, h12, h2N, rfl⟩)))
      exact (clauseSat_pair _ _ _ _ (by unfold var; omega) (by unfold var; omega)).mp hc
    · intro j i1 i2 hj h12 h2N
      have hc := h _ ((mem_queensClauses N _).mpr
        (Or.inr (Or.inr (Or.inl ⟨j, i1, i2, hj, h12, h2N, rfl⟩))))
      exact (clauseSat_pair _ _ _ _ (by unfold var; omega) (by unfold var; omega)).mp hc
    · intro i1 j1 i2 j2 h12 h2N hj1 hj2 hd
      have hc := h _ ((mem_queensClauses N _).mpr
        (Or.inr (Or.inr (Or.inr (Or.inl
          ⟨(i1 : Int) - (j1 : Int), by omega, by omega,
            i1, j1, i2, j2, h12, h2N, hj1, hj2, rfl, by omega, rfl⟩)))))
      exact (clauseSat_pair _ _ _ _ (by unfold var; omega) (by unfold var; omega)).mp hc
    · intro i1 j1 i2 j2 h12 h2N hj1 hj2 hd
      have hc := h _ ((mem_queensClauses N _).mpr
        (Or.inr (Or.inr (Or.inr (Or.inr
          ⟨(i1 : Int) + (j1 : Int), by omega, by omega,
            i1, j1, i2, j2, h12, h2N, hj1, hj2, rfl, by omega, rfl⟩)))))
      exact (clauseSat_pair _ _ _ _ (by unfold var; omega) (by unfold var; omega)).mp hc
  · intro hb c hc
    rcases (mem_queensClauses N c).mp hc with hf | hf | hf | hf | hf
    · obtain ⟨i, hi, rfl⟩ := hf
      exact (clauseSat_rowALO N a i).mpr (hb.1 i hi)
    · obtain ⟨i, j1, j2, hi, h12, h2N, rfl⟩ := hf
      exact (clauseSat_pair _ _ _ _ (by unfold var; omega) (by unfold var; omega)).mpr
        (hb.2.1 i j1 j2 hi h12 h2N)
    · obtain ⟨j, i1, i2, hj, h12, h2N, rfl⟩ := hf
      exact (clauseSat_pair _ _ _ _ (by unfold var; omega) (by unfold var; omega)).mpr
        (hb.2.2.1 j i1 i2 hj h12 h2N)
    · obtain ⟨d, hdl, hdu, i1, j1, i2, j2, h12, h2N, hj1, hj2, hd1, hd2, rfl⟩ := hf
      exact (clauseSat_pair _ _ _ _ (by unfold var; omega) (by unfold var; omega)).mpr
        (hb.2.2.2.1 i1 j1 i2 j2 h12 h2N hj1 hj2 (by omega))
    · obtain ⟨d, hdl, hdu, i1, j1, i2, j2, h12, h2N, hj1, hj2, hd1, hd2, rfl⟩ := hf
      exact (clauseSat_pair _ _ _ _ (by unfold var; omega) (by unfold var; omega)).mpr
        (hb.2.2.2.2 i1 j1 i2 j2 h12 h2N hj1 hj2 (by omega))

lemma safeAux_iff (c : Nat) (d : Nat) (l : List Nat) :
    safeAux c d l = true ↔
      ∀ m, m < l.length →
        l.getD m 0 ≠ c ∧ l.getD m 0 + (d + m) ≠ c ∧ c + (d + m) ≠ l.getD m 0 := by
  induction l generalizing d with
  | nil => simp [safeAux]
  | cons p rest ih =>
    rw [safeAux, Bool.and_eq_true, Bool.and_eq_true, Bool.and_eq_true,
      decide_eq_true_eq, decide_eq_true_eq, decide_eq_true_eq, ih]
    constructor
    · rintro ⟨⟨⟨h1, h2⟩, h3⟩, hrest⟩ m hm
      match m with
      | 0 => exact ⟨h1, by simpa using h2, by simpa using h3⟩
      | Nat.succ k =>
        have hk : k < rest.length := by simpa using hm
        obtain ⟨g1, g2, g3⟩ := hrest k hk
        rw [List.getD_cons_succ]
        exact ⟨g1, by omega, by omega⟩
    · intro h
      refine ⟨⟨⟨?_, ?_⟩, ?_⟩, ?_⟩
      · simpa using (h 0 (by simp)).1
      · have := (h 0 (by simp)).2.1
        simpa using this
      · have := (h 0 (by simp)).2.2
        simpa using this
      · intro k hk
        obtain ⟨g1, g2, g3⟩ := h (k+1) (by simpa using hk)
        rw [List.getD_cons_succ] at g1 g2 g3
        exact ⟨g1, by omega, by omega⟩

lemma validStack_iff (N : Nat) (l : List Nat) :
    validStack N l = true ↔
      (∀ k, k < l.length → l.getD k 0 < N) ∧
      (∀ k1 k2, k1 < k2 → k2 < l.length →
        l.getD k1 0 ≠ l.getD k2 0 ∧
        l.getD k1 0 + (k2 - k1) ≠ l.getD k2 0 ∧
        l.getD k2 0 + (k2 - k1) ≠ l.getD k1 0) := by
  induction l with
  | nil => simp [validStack]
  | cons c rest ih =>
    rw [validStack, Bool.and_eq_true, Bool.and_eq_true, decide_eq_true_eq,
      safeAux_iff, ih]
    constructor
    · rintro ⟨⟨hcN, hsafe⟩, hent, hpair⟩
      constructor
      · intro k hk
        match k with
        | 0 => simpa using hcN
        | Nat.succ m =>
          rw [List.getD_cons_succ]
          exact hent m (by simpa using hk)
      · intro k1 k2 h12 h2len
        match k1, k2 with
        | 0, Nat.succ m =>
          rw [List.getD_cons_zero, List.getD_cons_succ]
          obtain ⟨g1, g2, g3⟩ := hsafe m (by simpa using h2len)
          refine ⟨fun he => g1 he.symm, ?_, ?_⟩
          · omega
          · omega
        | Nat.succ m1, Nat.succ m2 =>
          rw [List.getD_cons_succ, List.getD_cons_succ]
          obtain ⟨g1, g2, g3⟩ := hpair m1 m2 (by omega) (by simpa using h2len)
          refine ⟨g1, ?_, ?_⟩
          · omega
          · omega
    · rintro ⟨hent, hpair⟩
      refine ⟨⟨?_, ?_⟩, ?_, ?_⟩
      · simpa using hent 0 (by simp)
      · intro m hm
        obtain ⟨g1, g2, g3⟩ := hpair 0 (m+1) (by omega) (by simpa using hm)
        rw [List.getD_cons_zero, List.getD_cons_succ] at g1 g2 g3
        refine ⟨fun he => g1 he.symm, ?_, ?_⟩
        · omega
        · omega
      · intro m hm
        exact hent (m+1) (by simpa using hm)
      · intro m1 m2 h12 h2len
        obtain ⟨g1, g2, g3⟩ := hpair (m1+1) (m2+1) (by omega) (by simpa using h2len)
        rw [List.getD_cons_succ, List.getD_cons_succ] at g1 g2 g3
        refine ⟨g1, ?_, ?_⟩
        · omega
        · omega

lemma validStack_suffix (N : Nat) (xs ys : List Nat)
    (h : validStack N (xs ++ ys) = true) : validStack N ys = true := by
  induction xs with
  | nil => exact h
  | cons x xs ih =>
    rw [List.cons_append, validStack, Bool.and_eq_true, Bool.and_eq_true] at h
    exact ih h.2

lemma mem_allLists (N : Nat) : ∀ (r : Nat) (l : List Nat),
    l ∈ allLists N r ↔ l.length = r ∧ ∀ x ∈ l, x < N := by
  intro r
  induction r with
  | zero =>
    intro l
    constructor
    · intro h
      have hl : l = [] := by simpa [allLists] using h
      subst hl
      simp
    · rintro ⟨hlen, -⟩
      have hl : l = [] := List.length_eq_zero.mp hlen
      subst hl
      simp [allLists]
  | succ r ih =>
    intro l
    rw [allLists, List.mem_flatMap]
    constructor
    · rintro ⟨c, hc, hl⟩
      obtain ⟨l', hl', rfl⟩ := List.mem_map.mp hl
      obtain ⟨hlen, hent⟩ := (ih l').mp hl'
      refine ⟨by simp [hlen], ?_⟩
      intro x hx
      rcases List.mem_append.mp hx with hx' | hx'
      · exact hent x hx'
      · have : x = c := by simpa using hx'
        subst this
        exact List.mem_range.mp hc
    · rintro ⟨hlen, hent⟩
      have hne : l ≠ [] := by
        intro h
        rw [h] at hlen
        simp at hlen
      refine ⟨l.getLast hne, ?_, ?_⟩
      · exact List.mem_range.mpr (hent _ (List.getLast_mem hne))
      · refine List.mem_map.mpr ⟨l.dropLast, ?_, List.dropLast_append_getLast hne⟩
        refine (ih l.dropLast).mpr ⟨?_, ?_⟩
        · rw [List.length_dropLast, hlen]
          rfl
        · intro x hx
          exact hent x (List.dropLast_subset l hx)

lemma allLists_nodup (N : Nat) : ∀ (r : Nat), (allLists N r).Nodup := by
  intro r
  induction r with
  | zero => simp [allLists]
  | succ r ih =>
    rw [allLists, List.nodup_flatMap]
    constructor
    · intro c hc
      have hinj : Function.Injective (fun l : List Nat => l ++ [c]) := by
        intro l1 l2 he
        have := congrArg List.dropLast he
        simpa using this
      exact ih.map hinj
    · rw [List.pairwise_iff_forall_sublist]
      intro c1 c2 hsub
      have hne : c1 ≠ c2 :=
        List.pairwise_iff_forall_sublist.mp (List.nodup_range N) hsub
      intro x hx1 hx2
      obtain ⟨l1', hl1', rfl⟩ := List.mem_map.mp hx1
      obtain ⟨l2', hl2', heq⟩ := List.mem_map.mp hx2
      have h1 := congrArg List.getLast? heq
      rw [List.getLast?_concat, List.getLast?_concat] at h1
      exact hne (by injection h1 with h; exact h.symm)

lemma countP_flatMap {α β : Type} (l : List α) (f : α → List β) (p : β → Bool) :
    (l.flatMap f).countP p = (l.map (fun a => (f a).countP p)).sum := by
  induction l with
  | nil => simp
  | cons a t ih => simp [List.countP_append, ih]

lemma countQueensAux_eq (N : Nat) : ∀ (r : Nat) (placed : List Nat),
    validStack N placed = true →
    countQueensAux N r placed =
      (allLists N r).countP (fun l => validStack N (l ++ placed)) := by
  intro r
  induction r with
  | zero =>
    intro placed hv
    simp [countQueensAux, allLists, List.countP_cons, hv]
  | succ r ih =>
    intro placed hv
    rw [countQueensAux, allLists, countP_flatMap]
    refine congrArg List.sum (List.map_congr_left ?_)
    intro c hc
    have hcN := List.mem_range.mp hc
    rw [List.countP_map]
    rcases hsafe : safeAux c 1 placed with _ | _
    · rw [if_neg (by simp [hsafe])]
      symm
      rw [List.countP_eq_zero]
      intro l hl
      rw [Function.comp_apply]
      intro hvl
      have hvl' : validStack N (l ++ (c :: placed)) = true := by
        rw [← List.singleton_append, ← List.append_assoc]
        simpa using hvl
      have hsuf := validStack_suffix N l (c :: placed) hvl'
      rw [validStack, Bool.and_eq_true, Bool.and_eq_true] at hsuf
      rw [hsafe] at hsuf
      exact Bool.false_ne_true hsuf.1.2
    · rw [if_pos (by simp [hsafe])]
      have hvc : validStack N (c :: placed) = true := by
        rw [validStack, Bool.and_eq_true, Bool.and_eq_true]
        exact ⟨⟨by simpa using hcN, hsafe⟩, hv⟩
      rw [ih (c :: placed) hvc]
      refine List.countP_congr ?_
      intro l hl
      rw [Function.comp_apply]
      constructor
      · intro hvl
        rw [List.append_assoc, List.singleton_append]
        exact hvl
      · intro hvl
        rw [List.append_assoc, List.singleton_append] at hvl
        exact hvl

lemma countQueens_eq_countP (N : Nat) :
    countQueens N = (allLists N N).countP (validStack N) := by
  rw [countQueens, countQueensAux_eq N N [] rfl]
  refine List.countP_congr ?_
  intro l hl
  rw [List.append_nil]

lemma find?_range_eq_some (N : Nat) (p : Nat → Bool) (j0 : Nat) (hj0 : j0 < N)
    (hp : p j0 = true) (huniq : ∀ j, j < N → p j = true → j = j0) :
    (List.range N).find? p = some j0 := by
  rcases hfind : (List.range N).find? p with _ | j1
  · exact absurd hp
      (by simpa using List.find?_eq_none.mp hfind j0 (List.mem_range.mpr hj0))
  · have h1 := List.find?_some hfind
    have h2 := List.mem_range.mp (List.mem_of_find?_eq_some hfind)
    rw [huniq j1 h2 h1]

lemma cell_lt (N i j : Nat) (hi : i < N) (hj : j < N) : i * N + j < N * N := by
  have h1 : (i + 1) * N ≤ N * N := Nat.mul_le_mul_right N hi
  have h2 : (i + 1) * N = i * N + N := by ring
  omega

lemma queenB_eq (N : Nat) (a : Fin (N * N) → Bool) (i j : Nat)
    (hi : i < N) (hj : j < N) :
    queenB N a i j = a ⟨i * N + j, cell_lt N i j hi hj⟩ := by
  have hlt := cell_lt N i j hi hj
  unfold queenB evalVar var
  rw [dif_pos ⟨by omega, by omega⟩]
  congr 1

lemma get?_eq_some_getD (l : List Nat) (m : Nat) (hm : m < l.length) :
    l.get? m = some (l.getD m 0) := by
  rw [List.get?_eq_getElem?, List.getElem?_eq_getElem hm,
    List.getD_eq_getElem?_getD, List.getElem?_eq_getElem hm]
  rfl

lemma getD_map_range (N : Nat) (f : Nat → Nat) (k : Nat) (hk : k < N) :
    (((List.range N).map f).getD k 0) = f k := by
  rw [List.getD_eq_getElem?_getD, List.getElem?_map, List.getElem?_range hk]
  rfl

lemma encode_queenB (N : Nat) (l : List Nat) (i j : Nat) (hi : i < N) (hj : j < N) :
    queenB N (encodeAssign N l) i j = decide (l.get? (N - 1 - i) = some j) := by
  rw [queenB_eq N _ i j hi hj]
  show decide (l.get? (N - 1 - (i * N + j) / N) = some ((i * N + j) % N)) = _
  have hcomm : i * N + j = N * i + j := by ring
  have hdiv : (i * N + j) / N = i := by
    rw [hcomm, Nat.mul_add_div (by omega), Nat.div_eq_of_lt hj, Nat.add_zero]
  have hmod : (i * N + j) % N = j := by
    rw [hcomm, Nat.mul_add_mod, Nat.mod_eq_of_lt hj]
  rw [hdiv, hmod]

lemma boardOK_colOf (N : Nat) (a : Fin (N * N) → Bool) (hb : BoardOK N a)
    (i : Nat) (hi : i < N) :
    colOf N a i < N ∧ queenB N a i (colOf N a i) = true ∧
      ∀ j, j < N → queenB N a i j = true → j = colOf N a i := by
  obtain ⟨j0, hj0, hq0⟩ := hb.1 i hi
  have huniq : ∀ j, j < N → queenB N a i j = true → j = j0 := by
    intro j hj hq
    rcases Nat.lt_trichotomy j j0 with h | h | h
    · exact absurd ⟨hq, hq0⟩ (hb.2.1 i j j0 hi h hj0)
    · exact h
    · exact absurd ⟨hq0, hq⟩ (hb.2.1 i j0 j hi h hj)
  have hfind : (List.range N).find? (fun j => queenB N a i j) = some j0 :=
    find?_range_eq_some N _ j0 hj0 hq0 huniq
  unfold colOf
  rw [hfind]
  exact ⟨hj0, hq0, huniq⟩

lemma decodeList_length (N : Nat) (a : Fin (N * N) → Bool) :
    (decodeList N a).length = N := by
  simp [decodeList]

lemma decodeList_getD (N : Nat) (a : Fin (N * N) → Bool) (k : Nat) (hk : k < N) :
    (decodeList N a).getD k 0 = colOf N a (N - 1 - k) :=
  getD_map_range N _ k hk

lemma decode_mem (N : Nat) (a : Fin (N * N) → Bool) (hb : BoardOK N a) :
    decodeList N a ∈ allLists N N ∧ validStack N (decodeList N a) = true := by
  constructor
  · refine (mem_allLists N N _).mpr ⟨decodeList_length N a, ?_⟩
    intro x hx
    obtain ⟨k, hk, rfl⟩ := List.mem_map.mp hx
    have hkN := List.mem_range.mp hk
    exact (boardOK_colOf N a hb (N - 1 - k) (by omega)).1
  · rw [validStack_iff]
    rw [decodeList_length]
    constructor
    · intro k hk
      rw [decodeList_getD N a k hk]
      exact (boardOK_colOf N a hb (N - 1 - k) (by omega)).1
    · intro k1 k2 h12 h2N
      rw [decodeList_getD N a k1 (by omega), decodeList_getD N a k2 h2N]
      set i2 := N - 1 - k1 with hi2def
      set i1 := N - 1 - k2 with hi1def
      have hi12 : i1 < i2 := by omega
      have hi2N : i2 < N := by omega
      have hi1N : i1 < N := by omega
      obtain ⟨hc2N, hq2, -⟩ := boardOK_colOf N a hb i1 hi1N
      obtain ⟨hc1N, hq1, -⟩ := boardOK_colOf N a hb i2 hi2N
      set c2 := colOf N a i1
      set c1 := colOf N a i2
      have hdist : k2 - k1 = i2 - i1 := by omega
      refine ⟨?_, ?_, ?_⟩
      · intro he
        exact hb.2.2.1 c1 i1 i2 (he ▸ hc1N) hi12 hi2N ⟨he ▸ hq2, hq1⟩
      · intro he
        refine hb.2.2.2.2 i1 c2 i2 c1 hi12 hi2N hc2N hc1N (by omega) ⟨hq2, hq1⟩
      · intro he
        refine hb.2.2.2.1 i1 c2 i2 c1 hi12 hi2N hc2N hc1N (by omega) ⟨hq2, hq1⟩

lemma encode_boardOK (N : Nat) (l : List Nat) (hmem : l ∈ allLists N N)
    (hv : validStack N l = true) : BoardOK N (encodeAssign N l) := by
  obtain ⟨hlen, hent⟩ := (mem_allLists N N l).mp hmem
  obtain ⟨hvent, hvpair⟩ := (validStack_iff N l).mp hv
  rw [hlen] at hvent hvpair
  have hgetD_lt : ∀ k, k < N → l.getD k 0 < N := hvent
  refine ⟨?_, ?_, ?_, ?_, ?_⟩
  · intro i hi
    refine ⟨l.getD (N - 1 - i) 0, hgetD_lt _ (by omega), ?_⟩
    rw [encode_queenB N l i _ hi (hgetD_lt _ (by omega))]
    rw [get?_eq_some_getD l _ (by omega)]
    simp
  · intro i j1 j2 hi h12 h2N
    rintro ⟨hq1, hq2⟩
    rw [encode_queenB N l i j1 hi (by omega)] at hq1
    rw [encode_queenB N l i j2 hi h2N] at hq2
    rw [decide_eq_true_eq] at hq1 hq2
    rw [hq1] at hq2
    have : j1 = j2 := by injection hq2
    omega
  · intro j i1 i2 hj h12 h2N
    rintro ⟨hq1, hq2⟩
    rw [encode_queenB N l i1 j (by omega) hj, decide_eq_true_eq] at hq1
    rw [encode_queenB N l i2 j h2N hj, decide_eq_true_eq] at hq2
    have hk1 : N - 1 - i2 < N - 1 - i1 := by omega
    have hk2N : N - 1 - i1 < N := by omega
    obtain ⟨g1, -, -⟩ := hvpair (N - 1 - i2) (N - 1 - i1) hk1 hk2N
    rw [get?_eq_some_getD l _ (by omega)] at hq1 hq2
    have e1 : l.getD (N - 1 - i1) 0 = j := by injection hq1
    have e2 : l.getD (N - 1 - i2) 0 = j := by injection hq2
    exact g1 (by omega)
  · intro i1 j1 i2 j2 h12 h2N hj1 hj2 hd
    rintro ⟨hq1, hq2⟩
    rw [encode_queenB N l i1 j1 (by omega) hj1, decide_eq_true_eq] at hq1
    rw [encode_queenB N l i2 j2 h2N hj2, decide_eq_true_eq] at hq2
    have hk1 : N - 1 - i2 < N - 1 - i1 := by omega
    have hk2N : N - 1 - i1 < N := by omega
    obtain ⟨-, -, g3⟩ := hvpair (N - 1 - i2) (N - 1 - i1) hk1 hk2N
    rw [get?_eq_some_getD l _ (by omega)] at hq1 hq2
    have e1 : l.getD (N - 1 - i1) 0 = j1 := by injection hq1
    have e2 : l.getD (N - 1 - i2) 0 = j2 := by injection hq2
    have hdist : (N - 1 - i1) - (N - 1 - i2) = i2 - i1 := by omega
    exact g3 (by omega)
  · intro i1 j1 i2 j2 h12 h2N hj1 hj2 hd
    rintro ⟨hq1, hq2⟩
    rw [encode_queenB N l i1 j1 (by omega) hj1, decide_eq_true_eq] at hq1
    rw [encode_queenB N l i2 j2 h2N hj2, decide_eq_true_eq] at hq2
    have hk1 : N - 1 - i2 < N - 1 - i1 := by omega
    have hk2N : N - 1 - i1 < N := by omega
    obtain ⟨-, g2, -⟩ := hvpair (N - 1 - i2) (N - 1 - i1) hk1 hk2N
    rw [get?_eq_some_getD l _ (by omega)] at hq1 hq2
    have e1 : l.getD (N - 1 - i1) 0 = j1 := by injection hq1
    have e2 : l.getD (N - 1 - i2) 0 = j2 := by injection hq2
    have hdist : (N - 1 - i1) - (N - 1 - i2) = i2 - i1 := by omega
    exact g2 (by omega)

lemma get_eq_getD (l : List Nat) (k : Nat) (hk : k < l.length) :
    l.get ⟨k, hk⟩ = l.getD k 0 := by
  rw [List.get_eq_getElem, List.getD_eq_getElem?_getD, List.getElem?_eq_getElem hk]
  rfl

lemma encode_decode (N : Nat) (a : Fin (N * N) → Bool) (hb : BoardOK N a) :
    encodeAssign N (decodeList N a) = a := by
  funext v
  have hvlt := v.isLt
  have hN0 : 0 < N := by
    rcases Nat.eq_zero_or_pos N with h0 | h0
    · subst h0
      simp at hvlt
    · exact h0
  have hi : v.val / N < N := (Nat.div_lt_iff_lt_mul hN0).mpr hvlt
  have hj : v.val % N < N := Nat.mod_lt _ hN0
  have hvij : v.val / N * N + v.val % N = v.val := by
    have h := Nat.div_add_mod v.val N
    rw [Nat.mul_comm]
    exact h
  have hidx : N - 1 - v.val / N < N :=
    lt_of_le_of_lt (Nat.sub_le (N - 1) _) (Nat.sub_lt hN0 Nat.one_pos)
  show decide ((decodeList N a).get? (N - 1 - v.val / N) = some (v.val % N)) = a v
  rw [get?_eq_some_getD (decodeList N a) (N - 1 - v.val / N)
    (by rw [decodeList_length]; exact hidx)]
  rw [decodeList_getD N a (N - 1 - v.val / N) hidx]
  have hii : N - 1 - (N - 1 - v.val / N) = v.val / N :=
    Nat.sub_sub_self (Nat.le_pred_of_lt hi)
  rw [hii]
  obtain ⟨hclt, hcq, hcuniq⟩ := boardOK_colOf N a hb (v.val / N) hi
  have haq : queenB N a (v.val / N) (v.val % N) = a v := by
    rw [queenB_eq N a _ _ hi hj]
    congr 1
    exact Fin.ext (by simpa using hvij)
  rcases hav : a v with _ | _
  · rw [decide_eq_false_iff_not]
    intro hsome
    have hce : colOf N a (v.val / N) = v.val % N := by injection hsome
    rw [hce] at hcq
    rw [haq, hav] at hcq
    exact Bool.false_ne_true hcq
  · have hce : v.val % N = colOf N a (v.val / N) := hcuniq _ hj (by rw [haq, hav])
    rw [← hce]
    simp

lemma decode_encode (N : Nat) (l : List Nat) (hmem : l ∈ allLists N N)
    (hv : validStack N l = true) :
    decodeList N (encodeAssign N l) = l := by
  obtain ⟨hlen, hent⟩ := (mem_allLists N N l).mp hmem
  obtain ⟨hvent, -⟩ := (validStack_iff N l).mp hv
  rw [hlen] at hvent
  apply List.ext_get (by rw [decodeList_length, hlen])
  intro k h1 h2
  have hkN : k < N := by rwa [decodeList_length] at h1
  rw [get_eq_getD _ _ h1, get_eq_getD _ _ h2, decodeList_getD N _ k hkN]
  have hj0N : l.getD k 0 < N := hvent k hkN
  have hrow : N - 1 - k < N := by omega
  have hback : N - 1 - (N - 1 - k) = k := by omega
  have hfind : (List.range N).find? (fun j => queenB N (encodeAssign N l) (N - 1 - k) j)
      = some (l.getD k 0) := by
    refine find?_range_eq_some N _ _ hj0N ?_ ?_
    · rw [encode_queenB N l _ _ hrow hj0N, hback,
        get?_eq_some_getD l k (by omega)]
      simp
    · intro j hjN hq
      rw [encode_queenB N l _ _ hrow hjN, hback,
        get?_eq_some_getD l k (by omega), decide_eq_true_eq] at hq
      injection hq with h
      exact h.symm
  unfold colOf
  rw [hfind]
  rfl

lemma modelCount_queensClauses (N : Nat) :
    modelCount (N * N) (queensClauses N) = countQueens N := by
  rw [countQueens_eq_countP, List.countP_eq_length_filter]
  have hnd : ((allLists N N).filter (validStack N)).Nodup :=
    (allLists_nodup N N).filter _
  rw [← List.toFinset_card_of_nodup hnd]
  unfold modelCount
  refine Finset.card_bij' (fun a _ => decodeList N a) (fun l _ => encodeAssign N l)
    ?_ ?_ ?_ ?_
  · intro a ha
    have hb : BoardOK N a :=
      (cnfSat_queensClauses_iff N a).mp (Finset.mem_filter.mp ha).2
    obtain ⟨hm, hv⟩ := decode_mem N a hb
    rw [List.mem_toFinset, List.mem_filter]
    exact ⟨hm, hv⟩
  · intro l hl
    rw [List.mem_toFinset, List.mem_filter] at hl
    refine Finset.mem_filter.mpr ⟨Finset.mem_univ _, ?_⟩
    exact (cnfSat_queensClauses_iff N _).mpr (encode_boardOK N l hl.1 hl.2)
  · intro a ha
    exact encode_decode N a
      ((cnfSat_queensClauses_iff N a).mp (Finset.mem_filter.mp ha).2)
  · intro l hl
    rw [List.mem_toFinset, List.mem_filter] at hl
    exact decode_encode N l hl.1 hl.2

lemma queens_count_of_noFault (N : Int) (s : String) (bo : SolverClass → Oracle)
    (hbo : ∀ c, ValidOracle (N.toNat * N.toNat) (bo c)) (c : SolverClass)
    (hsel : selectClass s = some c) (hN : ¬ N ≤ 3) (hnf : NoFault (bo c)) :
    (queens N s bo hbo).result = Except.ok (countQueens N.toNat) := by
  obtain ⟨l, hl, hlen⟩ :=
    enumAll_noFault (N.toNat * N.toNat) (bo c) (hbo c) hnf (queensClauses N.toNat)
  rw [queens_done_outcome N s bo hbo c hN hsel l hl]
  show Except.ok l.length = _
  rw [hlen, modelCount_queensClauses]

/-- C1: for `N` in `{4,…,8}` and every supported backend name, `queens`
returns the known solution count (2, 10, 4, 40, 92 respectively) whenever
the selected backend answers soundly and without faulting, and the count is
the same as with the glucose3 backend (backend choice does not change the
result). -/
theorem c1_known_counts (bo : SolverClass → Oracle) (N : Int) (expected : Nat)
    (s : String) (hbo : ∀ c, ValidOracle (N.toNat * N.toNat) (bo c))
    (hnf : ∀ c, NoFault (bo c))
    (hcase : (N, expected) = ((4 : Int), 2) ∨ (N, expected) = (5, 10) ∨
      (N, expected) = (6, 4) ∨ (N, expected) = (7, 40) ∨ (N, expected) = (8, 92))
    (hs : s ∈ ["glucose3", "minisat", "cadical"]) :
    (queens N s bo hbo).result = Except.ok expected ∧
      (queens N s bo hbo).result = (queens N "glucose3" bo hbo).result := by
  have hN : ¬ N ≤ 3 := by
    rcases hcase with h | h | h | h | h <;>
      (have h1 : N = _ := congrArg Prod.fst h; rw [h1]; decide)
  have key : ∀ (s' : String),
      (queens N s' bo hbo).result = Except.ok (countQueens N.toNat) := by
    intro s'
    exact queens_count_of_noFault N s' bo hbo _ (selectClass_eq s') hN (hnf _)
  refine ⟨?_, (key s).trans (key "glucose3").symm⟩
  rw [key s]
  rcases hcase with h | h | h | h | h <;>
    (have h1 : N = _ := congrArg Prod.fst h
     have h2 : expected = _ := congrArg Prod.snd h
     subst h1
     subst h2)
  · rw [show countQueens ((4 : Int).toNat) = 2 from by decide]
  · rw [show countQueens ((5 : Int).toNat) = 10 from by decide]
  · rw [show countQueens ((6 : Int).toNat) = 4 from by decide]
  · rw [show countQueens ((7 : Int).toNat) = 40 from by decide]
  · rw [show countQueens ((8 : Int).toNat) = 92 from by decide]

/-- Witness for C1 at `N = 4` with the `"minisat"` name and the reference
backend. -/
theorem c1_known_counts_witness :
    (queens 4 "minisat" (fun _ => bruteOracle ((4 : Int).toNat * (4 : Int).toNat))
        (fun _ => bruteOracle_valid _)).result = Except.ok 2 :=
  (c1_known_counts (fun _ => bruteOracle ((4 : Int).toNat * (4 : Int).toNat)) 4 2
    "minisat" (fun _ => bruteOracle_valid _) (fun _ => bruteOracle_noFault _)
    (Or.inl rfl) (by decide)).1
